import Mathlib

/-!
# rhminer: worker accounting, work hand-off and statistics lines

A shallow embedding of `MinersLib/Miner.cpp` and of the helpers of
`corelib/utils.h` that it uses.  Machine integers are natural numbers
reduced modulo `2^64` (`U64`) or `2^32` (`U32`, `unsigned`) where the C++
arithmetic can wrap.  The clock reading of `TimeGetMilliSec()` is an explicit
argument `now` of every operation that reads the clock.
-/

namespace RHMiner

/-! ## Machine integers -/

/-- Number of values of a `U64`. -/
def U64_MOD : Nat := 2 ^ 64

/-- Number of values of a `U32` / `unsigned`. -/
def U32_MOD : Nat := 2 ^ 32

/-- Reinterpretation of a 64-bit pattern as the signed `S64` it denotes
(two's complement), as done by `S64 dt = <U64 expression>`. -/
def toS64 (x : Nat) : Int :=
  if x % U64_MOD < 2 ^ 63 then ((x % U64_MOD : Nat) : Int)
  else ((x % U64_MOD : Nat) : Int) - (U64_MOD : Int)

/-- The `U64` subtraction `a - b` (wraps modulo `2^64`). -/
def subU64 (a b : Nat) : Nat :=
  (((a : Int) - (b : Int)) % (U64_MOD : Int)).toNat

/-! ## Single-precision arithmetic

`float` is IEEE-754 binary32 with the default rounding mode (to nearest, ties
to even).  Only finite non-negative values arise in the code below, and all of
them lie in the normal range, so a value is a natural significand times a
power of two and the exponent is unbounded. -/

/-- Halving `n` at most `fuel` times until it is below 2, counting the halvings. -/
def log2Fuel : Nat → Nat → Nat
  | 0, _ => 0
  | fuel + 1, n => if n < 2 then 0 else log2Fuel fuel (n / 2) + 1

/-- The position of the leading bit of `n` (the binary logarithm rounded down). -/
def ilog2 (n : Nat) : Nat := log2Fuel n n

/-- A finite non-negative `float`: the number `man * 2 ^ exp`. -/
structure F32 where
  man : Nat
  exp : Int
deriving DecidableEq, Repr

/-- The rational number that a `float` denotes. -/
def F32.toRat (f : F32) : ℚ := (f.man : ℚ) * (2 : ℚ) ^ f.exp

/-- The binary exponent of the positive rational `n / d`: the integer `k` with
`2^k ≤ n / d < 2^(k+1)`. -/
def ratioExp (n d : Nat) : Int :=
  let l : Int := (ilog2 n : Int) - (ilog2 d : Int)
  if d * 2 ^ l.toNat ≤ n * 2 ^ (-l).toNat then l else l - 1

/-- The integer nearest to `num / den`, a tie going to the even one. -/
def roundNearestEven (num den : Nat) : Nat :=
  let m := num / den
  let r := num % den
  if den < 2 * r ∨ (2 * r = den ∧ m % 2 = 1) then m + 1 else m

/-- The `float` nearest to the rational `n / d` (ties to even): the
significand is `n / d` scaled into `[2^23, 2^24)` and rounded to an integer,
and a significand rounded up to `2^24` is written `2^23` with the next exponent.
`0` for `n = 0`; `d = 0` does not arise. -/
def F32.ofRatio (n d : Nat) : F32 :=
  if n = 0 ∨ d = 0 then ⟨0, 0⟩
  else
    let e : Int := ratioExp n d - 23
    let m := roundNearestEven (n * 2 ^ (-e).toNat) (d * 2 ^ e.toNat)
    if m = 2 ^ 24 then ⟨2 ^ 23, e + 1⟩ else ⟨m, e⟩

/-- Conversion of a non-negative integer (`U64`, or a positive `S64`) to
`float`. -/
def F32.ofNat (n : Nat) : F32 := F32.ofRatio n 1

/-- The `float` division `a / b` for `b` non-zero. -/
def F32.div (a b : F32) : F32 :=
  F32.ofRatio (a.man * 2 ^ (a.exp - b.exp).toNat) (b.man * 2 ^ (b.exp - a.exp).toNat)

/-- The `float` product `a * b`. -/
def F32.mul (a b : F32) : F32 :=
  F32.ofRatio (a.man * b.man * 2 ^ (a.exp + b.exp).toNat) (2 ^ (-(a.exp + b.exp)).toNat)

/-- The function `ceilf`: the least integer not below the argument, which is a
`float` again. -/
def F32.ceilf (a : F32) : F32 :=
  F32.ofRatio ((a.man * 2 ^ a.exp.toNat + 2 ^ (-a.exp).toNat - 1) / 2 ^ (-a.exp).toNat) 1

/-- The function `round` of `math.h` on a non-negative argument: the nearest
integer, halves away from zero. -/
def F32.round (a : F32) : Nat :=
  (2 * a.man * 2 ^ a.exp.toNat + 2 ^ (-a.exp).toNat) / (2 * 2 ^ (-a.exp).toNat)

/-- The function `powf(10, p)` for a non-negative integer `p`, taken as correctly
rounded (`powf(10, 2) = 100`). -/
def F32.pow10 (p : Nat) : F32 := F32.ofNat (10 ^ p)

/-- The function `pround(v, p)` of `utils.h` for `p ≥ 0`. -/
def pround (v : F32) (p : Nat) : F32 :=
  let v1 := F32.mul v (F32.pow10 p)
  let v2 := F32.ceilf v1
  F32.div v2 (F32.pow10 p)

/-! ## Atomic helpers (declared `extern` in `corelib/utils.h`) -/

/-- Modelled from the spec: `AtomicSet(x, val)` (only declared in `utils.h`, with the
note "return previous value") is an exchange: the pair is (previous value, new
content of `x`). -/
def AtomicSet (x val : Nat) : Nat × Nat := (x, val)

/-- Modelled from the spec: `AtomicAdd(U64& x, U64 val)` (only declared in `utils.h`)
adds `val` to the 64-bit cell `x`; the result is the new content of `x`. -/
def AtomicAdd (x val : Nat) : Nat := (x + val) % U64_MOD

/-! ## Event -/

/-- The `Event` class of `utils.h` (non-Windows variant): its only data member
that carries state is `m_isDone`.  `Miner` constructs its event as
`m_workReadyEvent(false, false)`, initially unset and without auto-reset. -/
structure Event where
  m_isDone : Bool
deriving DecidableEq, Repr

/-- Modelled from the spec: `Event::SetDone()` (defined outside `utils.h`) marks the
event signaled. -/
def Event.SetDone (_e : Event) : Event := { m_isDone := true }

/-- Modelled from the spec: `Event::Reset()` (defined outside `utils.h`) marks the
event unsignaled. -/
def Event.Reset (_e : Event) : Event := { m_isDone := false }

/-! ## The worker -/

/-- The fields of `Miner` that `Miner.cpp` reads or writes in the operations
below.  `Work` stands for `PascalWorkSptr`. -/
structure Miner (Work : Type) where
  /-- The `hashCount` of the spec. -/
  m_hashCount : Nat
  /-- The `hashCountWindowStart` of the spec, in milliseconds. -/
  m_hashCountTime : Nat
  /-- The `resetPending` of the spec. -/
  m_resetHashRateTime : Nat
  /-- The `currentWork` of the spec. -/
  m_workTemplate : Work
  /-- The `workReadyEvent` of the spec. -/
  m_workReadyEvent : Event
  /-- The `dirtyFlag` of the spec. -/
  m_workpackageDirty : Nat
deriving DecidableEq, Repr

variable {Work : Type}

/-- A worker without work package (`Work := Unit`), its event signaled and its
dirty flag clear, with the given accounting fields. -/
def workerWith (hashCount windowStart resetPending : Nat) : Miner Unit :=
  { m_hashCount := hashCount
    m_hashCountTime := windowStart
    m_resetHashRateTime := resetPending
    m_workTemplate := ()
    m_workReadyEvent := { m_isDone := true }
    m_workpackageDirty := 0 }

/-- `Miner::AddHashCount(hashes)` at clock reading `now`. -/
def Miner.AddHashCount (st : Miner Work) (now hashes : Nat) : Miner Work :=
  let r := AtomicSet st.m_resetHashRateTime 0
  let st1 := { st with m_resetHashRateTime := r.2 }
  if r.1 ≠ 0 then
    { st1 with m_hashCount := hashes, m_hashCountTime := now }
  else
    { st1 with m_hashCount := (st1.m_hashCount + hashes) % U64_MOD }

/-- `Miner::TryResetHashCount()` at clock reading `now`. -/
def Miner.TryResetHashCount (st : Miner Work) (now : Nat) : Miner Work :=
  let r := AtomicSet st.m_resetHashRateTime 0
  let st1 := { st with m_resetHashRateTime := r.2 }
  if r.1 ≠ 0 then
    { st1 with m_hashCount := 0, m_hashCountTime := now }
  else
    st1

/-- `Miner::SetWork(_work)`. -/
def Miner.SetWork (st : Miner Work) (work : Work) : Miner Work :=
  let st1 := { st with m_workTemplate := work }
  { st1 with m_workReadyEvent := st1.m_workReadyEvent.SetDone }

/-- `Miner::SetWorkpackageDirty()`. -/
def Miner.SetWorkpackageDirty (st : Miner Work) : Miner Work :=
  { st with m_workpackageDirty := (AtomicSet st.m_workpackageDirty 1).2 }

/-- `Miner::Pause()`. -/
def Miner.Pause (st : Miner Work) : Miner Work :=
  { st with m_workReadyEvent := st.m_workReadyEvent.Reset }

/-- The rate expression `(U64)round(m_hashCount / (float)(dt / 1000.0f))` of
`GetHashRatePerSec` for `dt > 0`.  The conversion to `U64` is only defined by
C++ for a value below `2^64`.  For such a value the result is the value
itself; for a larger one the program's result is undefined, and the value
modulo `2^64` that stands here says nothing about the program. -/
def hashRateOf (hashCount : Nat) (dt : Nat) : Nat :=
  (F32.round (F32.div (F32.ofNat hashCount) (F32.div (F32.ofNat dt) ⟨1000, 0⟩))) % U64_MOD

/-- `Miner::GetHashRatePerSec()` at clock reading `now`: the value returned and
the state left. -/
def Miner.GetHashRatePerSec (st : Miner Work) (now : Nat) : Nat × Miner Work :=
  if st.m_hashCountTime ≠ 0 then
    let dt : Int := toS64 (subU64 now st.m_hashCountTime)
    let rate := if dt > 0 then hashRateOf st.m_hashCount dt.toNat else 0
    (rate, { st with m_resetHashRateTime := AtomicAdd st.m_resetHashRateTime 1 })
  else
    (0, st)

/-- The operations of a worker that the accounting claims range over. -/
inductive MinerOp (Work : Type) where
  | addHashCount (hashes : Nat)
  | tryResetHashCount
  | getHashRatePerSec
  | setWork (work : Work)
  | setWorkpackageDirty
  | pause

/-- One operation applied at clock reading `now`. -/
def Miner.step (st : Miner Work) (now : Nat) : MinerOp Work → Miner Work
  | .addHashCount h => st.AddHashCount now h
  | .tryResetHashCount => st.TryResetHashCount now
  | .getHashRatePerSec => (st.GetHashRatePerSec now).2
  | .setWork w => st.SetWork w
  | .setWorkpackageDirty => st.SetWorkpackageDirty
  | .pause => st.Pause

/-- A sequence of calls, each with the clock reading at which it runs. -/
def Miner.run (st : Miner Work) : List (Nat × MinerOp Work) → Miner Work
  | [] => st
  | (now, op) :: rest => (st.step now op).run rest

/-- Whether a call is `AddHashCount` or `TryResetHashCount`. -/
def MinerOp.isAddOrTryReset : MinerOp Work → Bool
  | .addHashCount _ => true
  | .tryResetHashCount => true
  | _ => false

/-- The sum of the arguments of the `AddHashCount` calls of a sequence. -/
def addedHashes : List (Nat × MinerOp Work) → Nat
  | [] => 0
  | (_, .addHashCount h) :: rest => h + addedHashes rest
  | _ :: rest => addedHashes rest

/-! ## Statistics lines -/

/-- The conversion `%d` of `FormatString` applied to an `unsigned`: the 32-bit
pattern is printed as a signed `int`. -/
def formatD (v : Nat) : String :=
  if v % U32_MOD < 2 ^ 31 then toString (v % U32_MOD)
  else toString (((v % U32_MOD : Nat) : Int) - (U32_MOD : Int))

/-- The element `arr[gpuIdx[i]]` of a per-device counter array.  The index is
within both arrays wherever the C++ code is defined. -/
def counterAt (gpuIdx arr : List Nat) (i : Nat) : Nat :=
  arr.getD (gpuIdx.getD i 0) 0

/-- The first loop of the lambda `ResToStr`: the `U32` total over the enabled
indices. -/
def resTotal (gpuIdx arr : List Nat) : Nat :=
  (List.range gpuIdx.length).foldl (fun total i => (total + counterAt gpuIdx arr i) % U32_MOD) 0

/-- The second loop of the lambda `ResToStr`, appending to `str`. -/
def resList (gpuIdx arr : List Nat) (str : String) : String :=
  (List.range gpuIdx.length).foldl
    (fun s i =>
      let s1 := s ++ formatD (counterAt gpuIdx arr i)
      if i + 1 ≠ gpuIdx.length then s1 ++ " " else s1)
    str

/-- The lambda `ResToStr` of `SolutionStats::ToString`, `gpuIdx` being the value
of `GpuManager::GetEnabledGPUIndices()`. -/
def ResToStr (gpuIdx arr : List Nat) : String :=
  let total := resTotal gpuIdx arr
  let str := toString total
  if gpuIdx.length > 1 ∧ total ≠ 0 then
    let str := str ++ " ("
    let str := resList gpuIdx arr str
    str ++ ")"
  else
    str

/-- The counters of `SolutionStats` that `ToString` prints. -/
structure SolutionStats where
  accepts : List Nat
  rejects : List Nat
  failures : List Nat
deriving DecidableEq, Repr

/-- `SolutionStats::ToString`.  `gpuIdx` is the list of enabled device indices and
`upFor` the text `SecondsToStr((U64)Elapsed())`, both computed outside
`Miner.cpp`. -/
def SolutionStats.ToString (gpuIdx : List Nat) (upFor : String) (s : SolutionStats) : String :=
  let str := "Shares: Accepted " ++ ResToStr gpuIdx s.accepts
  let str := str ++ ("  Rejected " ++ ResToStr gpuIdx s.rejects)
  let str := str ++ ("  Failed " ++ ResToStr gpuIdx s.failures)
  let str := str ++ (" Up for " ++ upFor)
  str

/-- The fields of `WorkingProgress` that `Miner.cpp` reads.  The rates are the
`U64` values of `GetHashRatePerSec()`. -/
structure WorkingProgress where
  totalHashRate : Nat
  minersHasheRate : List Nat
  gpuGlobalIndex : List Nat
  temperature : List Nat
  fan : List Nat
deriving DecidableEq, Repr

/-- One entry of the per-device breakdown of `WorkingProgress::ToString`:
`FormatString("%s %s", gpuName, HashrateToString(pround(rate, 2)))`. -/
def WorkingProgress.entry (gpuName : Nat → String) (HashrateToString : F32 → String)
    (wp : WorkingProgress) (i : Nat) : String :=
  let mh := pround (F32.ofNat (wp.minersHasheRate.getD i 0)) 2
  gpuName (wp.gpuGlobalIndex.getD i 0) ++ " " ++ HashrateToString mh

/-- `WorkingProgress::ToString()`.  `gpuName i` stands for
`GpuManager::Gpus[i].gpuName` and `HashrateToString` for the function of that
name, which is defined outside `utils.h`. -/
def WorkingProgress.ToString (gpuName : Nat → String) (HashrateToString : F32 → String)
    (wp : WorkingProgress) : String :=
  let mh := F32.ofNat wp.totalHashRate
  if wp.minersHasheRate.length = 1 then
    "Total: " ++ gpuName (wp.gpuGlobalIndex.getD 0 0) ++ " " ++ HashrateToString mh ++ "."
  else
    let str := "Total: " ++ HashrateToString mh ++ " "
    if wp.minersHasheRate.length > 1 then
      let str := str ++ "("
      let str := (List.range wp.minersHasheRate.length).foldl
        (fun s i =>
          let s1 := s ++ wp.entry gpuName HashrateToString i
          if i + 1 ≠ wp.minersHasheRate.length then s1 ++ " " else s1)
        str
      str ++ "). "
    else
      str

/-- The body of the loops that print a list with single spaces between the
items and none after the last. -/
def sepStep (e : Nat → String) (n : Nat) (s : String) (i : Nat) : String :=
  if i + 1 ≠ n then (s ++ e i) ++ " " else s ++ e i

/-- Whether a call is one of the three accounting operations `AddHashCount`,
`TryResetHashCount` and `GetHashRatePerSec`. -/
def MinerOp.isAccounting : MinerOp Work → Bool
  | .addHashCount _ => true
  | .tryResetHashCount => true
  | .getHashRatePerSec => true
  | _ => false

/-- The values returned by the `GetHashRatePerSec` calls of a sequence, in the
order of the calls. -/
def Miner.rates (st : Miner Work) : List (Nat × MinerOp Work) → List Nat
  | [] => []
  | (now, .getHashRatePerSec) :: rest =>
    (st.GetHashRatePerSec now).1 :: (st.step now .getHashRatePerSec).rates rest
  | (now, op) :: rest => (st.step now op).rates rest

/-! ## The work loop -/

/-- What one call of `WorkLoopStep()` does, as `WorkLoop` sees it: it returns
`true`, returns `false`, throws a `cl::Error`, or throws anything else. -/
inductive StepOutcome where
  | returnsTrue
  | returnsFalse
  | throwsClError
  | throwsOther
deriving DecidableEq, Repr

/-- The lines that `WorkLoop` prints. -/
inductive LogLine where
  | openCLError
  | unknownException
deriving DecidableEq, Repr

/-- How `WorkLoop` ends: it returns to its caller, or the `cl::Error` is thrown
again (`throw _e`). -/
inductive LoopExit where
  | returned
  | rethrown
deriving DecidableEq, Repr

/-- A finished run of `WorkLoop`: the number of `WorkLoopStep()` calls made,
the lines printed and the way it ended. -/
structure LoopRun where
  stepsRun : Nat
  log : List LogLine
  exit : LoopExit
deriving DecidableEq, Repr

/-- `Miner::WorkLoop()` from its `i`-th call of `WorkLoopStep()` on, `steps i`
being the outcome of that call.  `fuel` bounds the number of iterations
followed; `none` means the loop is still running when it is used up. -/
def WorkLoopFrom (steps : Nat → StepOutcome) : Nat → Nat → Option LoopRun
  | 0, _ => none
  | fuel + 1, i =>
    match steps i with
    | .returnsTrue => WorkLoopFrom steps fuel (i + 1)
    | .returnsFalse => some ⟨i + 1, [], .returned⟩
    | .throwsClError => some ⟨i + 1, [.openCLError], .rethrown⟩
    | .throwsOther => some ⟨i + 1, [.unknownException], .returned⟩

/-- `Miner::WorkLoop()`, followed for at most `fuel` iterations. -/
def WorkLoop (steps : Nat → StepOutcome) (fuel : Nat) : Option LoopRun :=
  WorkLoopFrom steps fuel 0

/-- The run that `WorkLoop` makes when its `k`-th step is the first one that does
not return `true`. -/
def loopRunAt (k : Nat) : StepOutcome → LoopRun
  | .returnsTrue => ⟨k + 1, [], .returned⟩
  | .returnsFalse => ⟨k + 1, [], .returned⟩
  | .throwsClError => ⟨k + 1, [.openCLError], .rethrown⟩
  | .throwsOther => ⟨k + 1, [.unknownException], .returned⟩

/-! ## CRC-32 -/

/-- The table `crc32_table` of `utils.h`, its 256 entries in the order of the
source. -/
def crc32_table : List Nat :=
  [0x00000000, 0x77073096, 0xEE0E612C, 0x990951BA,
   0x076DC419, 0x706AF48F, 0xE963A535, 0x9E6495A3,
   0x0EDB8832, 0x79DCB8A4, 0xE0D5E91E, 0x97D2D988,
   0x09B64C2B, 0x7EB17CBD, 0xE7B82D07, 0x90BF1D91,
   0x1DB71064, 0x6AB020F2, 0xF3B97148, 0x84BE41DE,
   0x1ADAD47D, 0x6DDDE4EB, 0xF4D4B551, 0x83D385C7,
   0x136C9856, 0x646BA8C0, 0xFD62F97A, 0x8A65C9EC,
   0x14015C4F, 0x63066CD9, 0xFA0F3D63, 0x8D080DF5,
   0x3B6E20C8, 0x4C69105E, 0xD56041E4, 0xA2677172,
   0x3C03E4D1, 0x4B04D447, 0xD20D85FD, 0xA50AB56B,
   0x35B5A8FA, 0x42B2986C, 0xDBBBC9D6, 0xACBCF940,
   0x32D86CE3, 0x45DF5C75, 0xDCD60DCF, 0xABD13D59,
   0x26D930AC, 0x51DE003A, 0xC8D75180, 0xBFD06116,
   0x21B4F4B5, 0x56B3C423, 0xCFBA9599, 0xB8BDA50F,
   0x2802B89E, 0x5F058808, 0xC60CD9B2, 0xB10BE924,
   0x2F6F7C87, 0x58684C11, 0xC1611DAB, 0xB6662D3D,
   0x76DC4190, 0x01DB7106, 0x98D220BC, 0xEFD5102A,
   0x71B18589, 0x06B6B51F, 0x9FBFE4A5, 0xE8B8D433,
   0x7807C9A2, 0x0F00F934, 0x9609A88E, 0xE10E9818,
   0x7F6A0DBB, 0x086D3D2D, 0x91646C97, 0xE6635C01,
   0x6B6B51F4, 0x1C6C6162, 0x856530D8, 0xF262004E,
   0x6C0695ED, 0x1B01A57B, 0x8208F4C1, 0xF50FC457,
   0x65B0D9C6, 0x12B7E950, 0x8BBEB8EA, 0xFCB9887C,
   0x62DD1DDF, 0x15DA2D49, 0x8CD37CF3, 0xFBD44C65,
   0x4DB26158, 0x3AB551CE, 0xA3BC0074, 0xD4BB30E2,
   0x4ADFA541, 0x3DD895D7, 0xA4D1C46D, 0xD3D6F4FB,
   0x4369E96A, 0x346ED9FC, 0xAD678846, 0xDA60B8D0,
   0x44042D73, 0x33031DE5, 0xAA0A4C5F, 0xDD0D7CC9,
   0x5005713C, 0x270241AA, 0xBE0B1010, 0xC90C2086,
   0x5768B525, 0x206F85B3, 0xB966D409, 0xCE61E49F,
   0x5EDEF90E, 0x29D9C998, 0xB0D09822, 0xC7D7A8B4,
   0x59B33D17, 0x2EB40D81, 0xB7BD5C3B, 0xC0BA6CAD,
   0xEDB88320, 0x9ABFB3B6, 0x03B6E20C, 0x74B1D29A,
   0xEAD54739, 0x9DD277AF, 0x04DB2615, 0x73DC1683,
   0xE3630B12, 0x94643B84, 0x0D6D6A3E, 0x7A6A5AA8,
   0xE40ECF0B, 0x9309FF9D, 0x0A00AE27, 0x7D079EB1,
   0xF00F9344, 0x8708A3D2, 0x1E01F268, 0x6906C2FE,
   0xF762575D, 0x806567CB, 0x196C3671, 0x6E6B06E7,
   0xFED41B76, 0x89D32BE0, 0x10DA7A5A, 0x67DD4ACC,
   0xF9B9DF6F, 0x8EBEEFF9, 0x17B7BE43, 0x60B08ED5,
   0xD6D6A3E8, 0xA1D1937E, 0x38D8C2C4, 0x4FDFF252,
   0xD1BB67F1, 0xA6BC5767, 0x3FB506DD, 0x48B2364B,
   0xD80D2BDA, 0xAF0A1B4C, 0x36034AF6, 0x41047A60,
   0xDF60EFC3, 0xA867DF55, 0x316E8EEF, 0x4669BE79,
   0xCB61B38C, 0xBC66831A, 0x256FD2A0, 0x5268E236,
   0xCC0C7795, 0xBB0B4703, 0x220216B9, 0x5505262F,
   0xC5BA3BBE, 0xB2BD0B28, 0x2BB45A92, 0x5CB36A04,
   0xC2D7FFA7, 0xB5D0CF31, 0x2CD99E8B, 0x5BDEAE1D,
   0x9B64C2B0, 0xEC63F226, 0x756AA39C, 0x026D930A,
   0x9C0906A9, 0xEB0E363F, 0x72076785, 0x05005713,
   0x95BF4A82, 0xE2B87A14, 0x7BB12BAE, 0x0CB61B38,
   0x92D28E9B, 0xE5D5BE0D, 0x7CDCEFB7, 0x0BDBDF21,
   0x86D3D2D4, 0xF1D4E242, 0x68DDB3F8, 0x1FDA836E,
   0x81BE16CD, 0xF6B9265B, 0x6FB077E1, 0x18B74777,
   0x88085AE6, 0xFF0F6A70, 0x66063BCA, 0x11010B5C,
   0x8F659EFF, 0xF862AE69, 0x616BFFD3, 0x166CCF45,
   0xA00AE278, 0xD70DD2EE, 0x4E048354, 0x3903B3C2,
   0xA7672661, 0xD06016F7, 0x4969474D, 0x3E6E77DB,
   0xAED16A4A, 0xD9D65ADC, 0x40DF0B66, 0x37D83BF0,
   0xA9BCAE53, 0xDEBB9EC5, 0x47B2CF7F, 0x30B5FFE9,
   0xBDBDF21C, 0xCABAC28A, 0x53B39330, 0x24B4A3A6,
   0xBAD03605, 0xCDD70693, 0x54DE5729, 0x23D967BF,
   0xB3667A2E, 0xC4614AB8, 0x5D681B02, 0x2A6F2B94,
   0xB40BBE37, 0xC30C8EA1, 0x5A05DF1B, 0x2D02EF8D]

/-- `RH_crc32_rec(crc, s)` of `utils.h`.  The list is the memory that `s` points
to, one `char` per element as its byte value.  The result is `none` when the
table is read outside its 256 entries or the memory ends before a NUL is
found. -/
def RH_crc32_rec (crc : Nat) : List Nat → Option Nat
  | [] => none
  | c :: s =>
    if c = 0 then some (crc ^^^ 0xFFFFFFFF)
    else
      match crc32_table[(crc % 256) ^^^ (c % 256)]? with
      | none => none
      | some t => RH_crc32_rec (t ^^^ (crc >>> 8)) s

/-- One bit of the reflected CRC-32 (following the claim, not the source): shift
right, and xor the polynomial `0xEDB88320` in when the bit shifted out was
set. -/
def crc32BitStepSpec (c : Nat) : Nat :=
  if c % 2 = 1 then (c >>> 1) ^^^ 0xEDB88320 else c >>> 1

/-- One byte of the bit-by-bit CRC-32 (following the claim, not the source): xor the byte
into the low bits, then eight bit steps. -/
def crc32ByteSpec (crc b : Nat) : Nat :=
  crc32BitStepSpec^[8] (crc ^^^ b)

/-- The standard reflected CRC-32 of a byte sequence, bit by bit (following the
claim, not the source): initial value `0xFFFFFFFF`, final xor `0xFFFFFFFF`. -/
def crc32BitwiseSpec (bytes : List Nat) : Nat :=
  bytes.foldl crc32ByteSpec 0xFFFFFFFF ^^^ 0xFFFFFFFF

/-! ## Temperature line -/

/-- One entry of `WorkingProgress::TemperatureToString`:
`FormatString("%s %dC %d%%  ", gpuName, temperature[i], fan[i])`. -/
def WorkingProgress.tempEntry (gpuName : Nat → String) (wp : WorkingProgress) (i : Nat) :
    String :=
  gpuName (wp.gpuGlobalIndex.getD i 0) ++ " " ++ formatD (wp.temperature.getD i 0) ++ "C "
    ++ formatD (wp.fan.getD i 0) ++ "%  "

/-- `WorkingProgress::TemperatureToString()`.  `isCPU i` stands for
`GpuManager::Gpus[i].gpuType == GpuType_CPU` and `gpuName i` for
`GpuManager::Gpus[i].gpuName`. -/
def WorkingProgress.TemperatureToString (isCPU : Nat → Bool) (gpuName : Nat → String)
    (wp : WorkingProgress) : String :=
  let gpuCount := (List.range wp.temperature.length).foldl
    (fun c i => if isCPU (wp.gpuGlobalIndex.getD i 0) = false then (c + 1) % U32_MOD else c) 0
  if gpuCount ≠ 0 then
    (List.range wp.temperature.length).foldl
      (fun s i =>
        if isCPU (wp.gpuGlobalIndex.getD i 0) = false then s ++ wp.tempEntry gpuName i else s)
      "Temp: "
  else
    ""

/-! ## Stopping a worker -/

/-- Modelled from the spec: `Event::WaitUntilDone()` (defined outside `utils.h`)
returns at once when the event is signaled and blocks while it is not.  The
result is the event as the caller finds it when the wait returns, `none` when
the caller stays blocked. -/
def Event.WaitUntilDone (e : Event) : Option Event :=
  if e.m_isDone then some e else none

/-- `Miner::Kill()`.  `WorkerKill` stands for `Worker::Kill()` of the base class,
which is not part of the sources at hand: it acts on the state `Base` of the
underlying thread and finds the worker as `Kill` has left it by then. -/
def Miner.Kill {Base : Type} (WorkerKill : Miner Work → Base → Base) (st : Miner Work)
    (base : Base) : Miner Work × Base :=
  let st1 := { st with m_workReadyEvent := st.m_workReadyEvent.SetDone }
  (st1, WorkerKill st1 base)

/-! ## Faults inside a step -/

/-- What the device call wrapped in `RHMINER_CL_EXEC` does: it returns 0, throws
a `cl::Error`, or throws anything else.  (A non-zero return value goes to
`RHMINER_ASSERT`, which is not part of the sources at hand.) -/
inductive ExecOutcome where
  | returnsZero
  | throwsClError
  | throwsOther
deriving DecidableEq, Repr

/-- The lines that `RHMINER_CL_EXEC` prints. -/
inductive ExecLogLine where
  | clException
  | exception
deriving DecidableEq, Repr

/-- What `RHMINER_CL_EXEC` leaves behind: the lines printed and whether the
`cl::Error` is thrown on (`throw err`). -/
structure ExecResult where
  log : List ExecLogLine
  rethrown : Bool
deriving DecidableEq, Repr

/-- The macro `RHMINER_CL_EXEC(code)` of `utils.h` in a build with OpenCL: a
`cl::Error` is printed and thrown on, any other exception is printed and
swallowed. -/
def RHMINER_CL_EXEC : ExecOutcome → ExecResult
  | .returnsZero => ⟨[], false⟩
  | .throwsClError => ⟨[.clException], true⟩
  | .throwsOther => ⟨[.exception], false⟩

/-- One call of `WorkLoopStep()`: what `WorkLoop` sees of it and the lines
printed inside it. -/
structure StepRun where
  outcome : StepOutcome
  log : List ExecLogLine
deriving DecidableEq, Repr

/-- Modelled from the spec: `WorkLoopStep()` is declared outside the sources at hand
(`Miner.h`) and its body is missing.  Following section 4.3 of the spec, a step
runs the device computation, here under `RHMINER_CL_EXEC`; a fault that is
logged and not thrown on leaves the step to be retried on the next iteration,
so the step returns `true` unless a stop has been observed; a `cl::Error` that
is thrown on leaves the step. -/
def WorkLoopStep (device : ExecOutcome) (stopObserved : Bool) : StepRun :=
  let r := RHMINER_CL_EXEC device
  if r.rethrown then ⟨.throwsClError, r.log⟩
  else if stopObserved then ⟨.returnsFalse, r.log⟩
  else ⟨.returnsTrue, r.log⟩

/-! # Properties -/

/-! ## Hash-count accounting -/

/-- C1: `AddHashCount(h)` always leaves `resetPending = 0`; when a reset was
pending it sets `hashCount = h` and `hashCountWindowStart = now`, otherwise it
sets `hashCount = (hashCount + h) mod 2^64` and keeps the window start. -/
theorem AddHashCount_spec (st : Miner Work) (now h : Nat) :
    (st.AddHashCount now h).m_resetHashRateTime = 0 ∧
    (st.m_resetHashRateTime ≠ 0 →
      (st.AddHashCount now h).m_hashCount = h ∧
      (st.AddHashCount now h).m_hashCountTime = now) ∧
    (st.m_resetHashRateTime = 0 →
      (st.AddHashCount now h).m_hashCount = (st.m_hashCount + h) % 2 ^ 64 ∧
      (st.AddHashCount now h).m_hashCountTime = st.m_hashCountTime) := by
  refine ⟨?_, ?_, ?_⟩
  · unfold Miner.AddHashCount AtomicSet
    by_cases hr : st.m_resetHashRateTime = 0 <;> simp [hr]
  · intro hr
    simp [Miner.AddHashCount, AtomicSet, hr]
  · intro hr
    simp [Miner.AddHashCount, AtomicSet, hr, U64_MOD]

/-- A state without pending reset keeps `resetPending = 0` under `AddHashCount` and
`TryResetHashCount`. -/
theorem step_reset_zero (st : Miner Work) (now : Nat) (op : MinerOp Work)
    (hop : op.isAddOrTryReset = true) :
    (st.step now op).m_resetHashRateTime = 0 := by
  cases op <;> simp [MinerOp.isAddOrTryReset] at hop
  · simp only [Miner.step, Miner.AddHashCount, AtomicSet]
    split <;> rfl
  · simp only [Miner.step, Miner.TryResetHashCount, AtomicSet]
    split <;> rfl

/-- With no reset pending, a sequence of `AddHashCount` and `TryResetHashCount`
calls adds the sum of the added amounts to `hashCount`, modulo `2^64`. -/
theorem run_hashCount_of_no_reset (ops : List (Nat × MinerOp Work)) :
    ∀ st : Miner Work, st.m_resetHashRateTime = 0 → st.m_hashCount < 2 ^ 64 →
      (∀ p ∈ ops, p.2.isAddOrTryReset = true) →
      (st.run ops).m_hashCount = (st.m_hashCount + addedHashes ops) % 2 ^ 64 := by
  induction ops with
  | nil =>
    intro st _ hlt _
    simp only [Miner.run, addedHashes, Nat.add_zero]
    exact (Nat.mod_eq_of_lt hlt).symm
  | cons p rest ih =>
    intro st hr hlt hops
    obtain ⟨now, op⟩ := p
    have hop : op.isAddOrTryReset = true := hops (now, op) (List.mem_cons_self _ _)
    have hrest : ∀ q ∈ rest, q.2.isAddOrTryReset = true :=
      fun q hq => hops q (List.mem_cons_of_mem _ hq)
    have hr1 := step_reset_zero st now op hop
    show ((st.step now op).run rest).m_hashCount = _
    cases op <;> simp [MinerOp.isAddOrTryReset] at hop
    · rename_i h
      have hc : (st.step now (.addHashCount h)).m_hashCount
          = (st.m_hashCount + h) % 2 ^ 64 := by
        simp [Miner.step, Miner.AddHashCount, AtomicSet, hr, U64_MOD]
      have hlt1 : (st.step now (.addHashCount h)).m_hashCount < 2 ^ 64 := by
        rw [hc]; exact Nat.mod_lt _ (by norm_num)
      rw [ih _ hr1 hlt1 hrest, hc]
      simp only [addedHashes]
      rw [Nat.mod_add_mod, Nat.add_assoc]
    · have hc : (st.step now .tryResetHashCount).m_hashCount = st.m_hashCount := by
        simp [Miner.step, Miner.TryResetHashCount, AtomicSet, hr]
      rw [ih _ hr1 (by rw [hc]; exact hlt) hrest, hc]
      simp only [addedHashes]

/-- C2: when a reset is pending, after `TryResetHashCount()` followed by any mix
of `AddHashCount(h_i)` and `TryResetHashCount()` calls the value of `hashCount` is
the sum of the `h_i` modulo `2^64`, whatever `hashCount` was before the reset. -/
theorem hashCount_after_drained_reset (st : Miner Work) (now : Nat)
    (ops : List (Nat × MinerOp Work))
    (hreset : st.m_resetHashRateTime ≠ 0)
    (hops : ∀ p ∈ ops, p.2.isAddOrTryReset = true) :
    ((st.TryResetHashCount now).run ops).m_hashCount = addedHashes ops % 2 ^ 64 := by
  have h0 : (st.TryResetHashCount now).m_hashCount = 0 := by
    simp [Miner.TryResetHashCount, AtomicSet, hreset]
  have hr : (st.TryResetHashCount now).m_resetHashRateTime = 0 := by
    simp [Miner.TryResetHashCount, AtomicSet, hreset]
  rw [run_hashCount_of_no_reset ops _ hr (by rw [h0]; norm_num) hops, h0, Nat.zero_add]

/-- Witness for C2: hash count 7 with a pending reset, drained, then 5 and 11
added around a second `TryResetHashCount()`. -/
theorem hashCount_after_drained_reset_witness :
    (((workerWith 7 100 1).TryResetHashCount 200).run
      [(201, .addHashCount 5), (202, .tryResetHashCount), (203, .addHashCount 11)]).m_hashCount
      = addedHashes
        ([(201, .addHashCount 5), (202, .tryResetHashCount), (203, .addHashCount 11)] :
          List (Nat × MinerOp Unit)) % 2 ^ 64 :=
  hashCount_after_drained_reset _ 200 _ (by decide) (by decide)

/-- C3: `TryResetHashCount()` with a reset pending clears it, zeroes `hashCount`
and sets the window start to `now`; with none pending it changes nothing; a
second call right after the first changes nothing. -/
theorem TryResetHashCount_spec (st : Miner Work) (now now2 : Nat) :
    (st.m_resetHashRateTime ≠ 0 →
      st.TryResetHashCount now =
        { st with m_resetHashRateTime := 0, m_hashCount := 0, m_hashCountTime := now }) ∧
    (st.m_resetHashRateTime = 0 → st.TryResetHashCount now = st) ∧
    (st.TryResetHashCount now).TryResetHashCount now2 = st.TryResetHashCount now := by
  refine ⟨?_, ?_, ?_⟩
  · intro hr
    simp [Miner.TryResetHashCount, AtomicSet, hr]
  · intro hr
    simp [Miner.TryResetHashCount, AtomicSet, hr]
    rw [← hr]
  · by_cases hr : st.m_resetHashRateTime = 0 <;>
      simp [Miner.TryResetHashCount, AtomicSet, hr]

/-! ## Rate query -/

/-- A clock reading not later than the window start gives a non-positive signed
64-bit difference, both being below `2^63` (as every millisecond reading is). -/
theorem elapsed_nonpos_of_not_later (now start : Nat) (h : now ≤ start)
    (hstart : start < 2 ^ 63) : toS64 (subU64 now start) ≤ 0 := by
  unfold toS64 subU64 U64_MOD
  rcases Nat.eq_or_lt_of_le h with heq | hlt
  · subst heq
    simp
  · have h1 : (((now : Int) - (start : Int)) % ((2 ^ 64 : Nat) : Int))
        = (now : Int) - (start : Int) + ((2 ^ 64 : Nat) : Int) := by
      rw [← Int.add_emod_self]
      apply Int.emod_eq_of_lt <;> push_cast <;> omega
    rw [h1]
    have h2 : ((now : Int) - (start : Int) + ((2 ^ 64 : Nat) : Int)).toNat
        = now + 2 ^ 64 - start := by
      push_cast
      omega
    rw [h2]
    have h3 : (now + 2 ^ 64 - start) % 2 ^ 64 = now + 2 ^ 64 - start := by
      apply Nat.mod_eq_of_lt
      omega
    rw [h3]
    have h4 : ¬ (now + 2 ^ 64 - start < 2 ^ 63) := by omega
    rw [if_neg h4]
    push_cast
    omega

/-- C4: when the clock reading is not later than the recorded window start (a
millisecond reading, below `2^63`), and more generally whenever the signed
64-bit difference `now - hashCountWindowStart` is not positive,
`GetHashRatePerSec()` returns exactly 0. -/
theorem GetHashRatePerSec_zero_of_nonpos_elapsed (st : Miner Work) (now : Nat)
    (h : (now ≤ st.m_hashCountTime ∧ st.m_hashCountTime < 2 ^ 63) ∨
      toS64 (subU64 now st.m_hashCountTime) ≤ 0) :
    (st.GetHashRatePerSec now).1 = 0 := by
  have hdt : toS64 (subU64 now st.m_hashCountTime) ≤ 0 := by
    rcases h with ⟨h1, h2⟩ | h
    · exact elapsed_nonpos_of_not_later now _ h1 h2
    · exact h
  unfold Miner.GetHashRatePerSec
  by_cases hs : st.m_hashCountTime = 0
  · simp [hs]
  · have hn : ¬ (toS64 (subU64 now st.m_hashCountTime) > 0) := not_lt.mpr hdt
    simp [hs, hn]

/-- Witness for C4: window started at 6000 ms, queried at 5000 ms. -/
theorem GetHashRatePerSec_zero_of_nonpos_elapsed_witness :
    ((workerWith 100 6000 0).GetHashRatePerSec 5000).1 = 0 :=
  GetHashRatePerSec_zero_of_nonpos_elapsed (workerWith 100 6000 0) 5000
    (Or.inl ⟨by decide, by decide⟩)

/-- C5, as stated, fails: a query on a worker whose window never started
(`hashCountWindowStart = 0`) requests no reset. -/
theorem GetHashRatePerSec_requests_reset_counterexample :
    ¬ (∀ (st : Miner Unit) (now : Nat),
        (st.GetHashRatePerSec now).2.m_resetHashRateTime ≠ 0) := by
  intro h
  exact h (workerWith 5 0 0) 1000 (by decide)

/-- C5, amended: when the window has started (`hashCountWindowStart ≠ 0`) and the
request counter does not wrap, every `GetHashRatePerSec()` call, whatever the
clock reading, leaves `resetPending` non-zero, so that the next
`AddHashCount(h)` starts a fresh window with `hashCount = h`. -/
theorem GetHashRatePerSec_requests_reset (st : Miner Work) (now now2 h : Nat)
    (hstart : st.m_hashCountTime ≠ 0)
    (hwrap : st.m_resetHashRateTime + 1 < 2 ^ 64) :
    (st.GetHashRatePerSec now).2.m_resetHashRateTime ≠ 0 ∧
    ((st.GetHashRatePerSec now).2.AddHashCount now2 h).m_hashCount = h ∧
    ((st.GetHashRatePerSec now).2.AddHashCount now2 h).m_hashCountTime = now2 ∧
    ((st.GetHashRatePerSec now).2.AddHashCount now2 h).m_resetHashRateTime = 0 := by
  have hreq : (st.GetHashRatePerSec now).2.m_resetHashRateTime
      = st.m_resetHashRateTime + 1 := by
    simp only [Miner.GetHashRatePerSec, hstart, AtomicAdd, U64_MOD, ne_eq, not_false_eq_true,
      if_true]
    exact Nat.mod_eq_of_lt hwrap
  have hne : (st.GetHashRatePerSec now).2.m_resetHashRateTime ≠ 0 := by
    rw [hreq]; exact Nat.succ_ne_zero _
  refine ⟨hne, ?_, ?_, ?_⟩ <;> simp [Miner.AddHashCount, AtomicSet, hne]

/-- Witness for C5 (amended): a started window queried after the clock moved
backward. -/
theorem GetHashRatePerSec_requests_reset_witness :
    ((workerWith 100 6000 0).GetHashRatePerSec 5000).2.m_resetHashRateTime
        ≠ 0 ∧
    (((workerWith 100 6000 0).GetHashRatePerSec 5000).2.AddHashCount
        5001 7).m_hashCount = 7 ∧
    (((workerWith 100 6000 0).GetHashRatePerSec 5000).2.AddHashCount
        5001 7).m_hashCountTime = 5001 ∧
    (((workerWith 100 6000 0).GetHashRatePerSec 5000).2.AddHashCount
        5001 7).m_resetHashRateTime = 0 :=
  GetHashRatePerSec_requests_reset _ 5000 5001 7 (by decide) (by decide)

/-! ## Work hand-off -/

/-- C7: `SetWork(pkg)` makes `pkg` the current work and signals the event; it
changes no other field; of two calls in a row the second one wins. -/
theorem SetWork_spec (st : Miner Work) (pkg pkg2 : Work) :
    (st.SetWork pkg).m_workTemplate = pkg ∧
    (st.SetWork pkg).m_workReadyEvent.m_isDone = true ∧
    (st.SetWork pkg).m_hashCount = st.m_hashCount ∧
    (st.SetWork pkg).m_hashCountTime = st.m_hashCountTime ∧
    (st.SetWork pkg).m_resetHashRateTime = st.m_resetHashRateTime ∧
    (st.SetWork pkg).m_workpackageDirty = st.m_workpackageDirty ∧
    ((st.SetWork pkg).SetWork pkg2).m_workTemplate = pkg2 := by
  simp [Miner.SetWork, Event.SetDone]

/-! ## Window invariant -/

/-- C10, as stated, fails: with no reset pending, `AddHashCount(1)` on
`hashCount = 2^64 - 1` wraps the 64-bit counter to 0, a decrease inside a
window. -/
theorem window_invariant_counterexample :
    ¬ (∀ (st : Miner Unit) (now : Nat) (op : MinerOp Unit),
        (¬ (st.m_resetHashRateTime ≠ 0 ∧ (st.step now op).m_resetHashRateTime = 0) →
          st.m_hashCount ≤ (st.step now op).m_hashCount ∧
          (st.step now op).m_hashCountTime = st.m_hashCountTime) ∧
        (st.m_resetHashRateTime ≠ 0 ∧ (st.step now op).m_resetHashRateTime = 0 →
          (st.step now op).m_hashCountTime = now)) := by
  intro h
  have h1 := (h (workerWith (2 ^ 64 - 1) 100 0) 200 (.addHashCount 1)).1 (by decide)
  exact absurd h1.1 (by decide)

/-- C10, amended: as long as the 64-bit addition of `AddHashCount` and the request
counter of `GetHashRatePerSec` do not wrap, an operation that does not clear a
non-zero `resetPending` never decreases `hashCount` and never changes
`hashCountWindowStart`, and an operation that clears a non-zero `resetPending`
sets `hashCountWindowStart` to the current clock reading. -/
theorem window_invariant (st : Miner Work) (now : Nat) (op : MinerOp Work)
    (hadd : ∀ h, op = .addHashCount h → st.m_hashCount + h < 2 ^ 64)
    (hreq : op = .getHashRatePerSec → st.m_resetHashRateTime + 1 < 2 ^ 64) :
    (¬ (st.m_resetHashRateTime ≠ 0 ∧ (st.step now op).m_resetHashRateTime = 0) →
      st.m_hashCount ≤ (st.step now op).m_hashCount ∧
      (st.step now op).m_hashCountTime = st.m_hashCountTime) ∧
    (st.m_resetHashRateTime ≠ 0 ∧ (st.step now op).m_resetHashRateTime = 0 →
      (st.step now op).m_hashCountTime = now) := by
  cases op with
  | addHashCount h =>
    have hlt : st.m_hashCount + h < 2 ^ 64 := hadd h rfl
    by_cases hr : st.m_resetHashRateTime = 0
    · simp [Miner.step, Miner.AddHashCount, AtomicSet, hr, U64_MOD]
      have hm : (st.m_hashCount + h) % 2 ^ 64 = st.m_hashCount + h := Nat.mod_eq_of_lt hlt
      norm_num at hm
      omega
    · simp [Miner.step, Miner.AddHashCount, AtomicSet, hr]
  | tryResetHashCount =>
    by_cases hr : st.m_resetHashRateTime = 0 <;>
      simp [Miner.step, Miner.TryResetHashCount, AtomicSet, hr]
  | getHashRatePerSec =>
    have hlt : st.m_resetHashRateTime + 1 < 2 ^ 64 := hreq rfl
    have hm : (st.m_resetHashRateTime + 1) % 2 ^ 64 = st.m_resetHashRateTime + 1 :=
      Nat.mod_eq_of_lt hlt
    by_cases hs : st.m_hashCountTime = 0
    · simp [Miner.step, Miner.GetHashRatePerSec, hs]
    · simp [Miner.step, Miner.GetHashRatePerSec, hs, AtomicAdd, U64_MOD]
      norm_num at hm
      omega
  | setWork w =>
    simp [Miner.step, Miner.SetWork]
  | setWorkpackageDirty =>
    simp [Miner.step, Miner.SetWorkpackageDirty]
  | pause =>
    simp [Miner.step, Miner.Pause]

/-- Witness for C10 (amended): `AddHashCount(7)` draining a pending reset at clock
reading 200. -/
theorem window_invariant_witness :
    (¬ ((workerWith 10 100 1).m_resetHashRateTime ≠ 0 ∧
        ((workerWith 10 100 1).step 200
          (.addHashCount 7)).m_resetHashRateTime = 0) →
      (workerWith 10 100 1).m_hashCount ≤
        ((workerWith 10 100 1).step 200 (.addHashCount 7)).m_hashCount ∧
      ((workerWith 10 100 1).step 200 (.addHashCount 7)).m_hashCountTime
        = (workerWith 10 100 1).m_hashCountTime) ∧
    ((workerWith 10 100 1).m_resetHashRateTime ≠ 0 ∧
        ((workerWith 10 100 1).step 200
          (.addHashCount 7)).m_resetHashRateTime = 0 →
      ((workerWith 10 100 1).step 200 (.addHashCount 7)).m_hashCountTime
        = 200) :=
  window_invariant _ 200 (.addHashCount 7)
    (fun h heq => by cases heq; decide) (fun heq => by cases heq)


/-! ## Loops over an index range -/

/-- Reading a list at every index of its range gives the list back. -/
theorem map_getD_range {α : Type} (l : List α) (d : α) :
    (List.range l.length).map (fun i => l.getD i d) = l := by
  apply List.ext_getElem
  · simp
  · intro n h1 h2
    simp [List.getD_eq_getElem?_getD, List.getElem?_eq_getElem h2]

/-- An index loop that reads `l[i]` is a fold over `l`. -/
theorem foldl_range_getD {α β : Type} (l : List α) (d : α) (g : β → α → β) (b : β) :
    (List.range l.length).foldl (fun acc i => g acc (l.getD i d)) b = l.foldl g b := by
  conv_rhs => rw [← map_getD_range l d]
  rw [List.foldl_map]

/-- A running total kept modulo `m` is the sum modulo `m`. -/
theorem foldl_add_mod (m : Nat) (l : List Nat) :
    ∀ t : Nat, l.foldl (fun total v => (total + v) % m) t % m = (t + l.sum) % m := by
  induction l with
  | nil => intro t; simp
  | cons v rest ih =>
    intro t
    simp only [List.foldl_cons, List.sum_cons]
    rw [ih, Nat.mod_add_mod, Nat.add_assoc]

/-- The total of `ResToStr` is the sum of the counters at the enabled indices,
modulo `2^32`. -/
theorem resTotal_eq (gpuIdx arr : List Nat) :
    resTotal gpuIdx arr = (gpuIdx.map (fun i => arr.getD i 0)).sum % 2 ^ 32 := by
  unfold resTotal counterAt
  rw [foldl_range_getD gpuIdx 0 (fun total i => (total + arr.getD i 0) % U32_MOD) 0]
  rw [← List.foldl_map (fun i => arr.getD i 0) (fun total v => (total + v) % U32_MOD)]
  have h := foldl_add_mod U32_MOD (gpuIdx.map (fun i => arr.getD i 0)) 0
  rw [Nat.zero_add] at h
  have hU : U32_MOD = 2 ^ 32 := rfl
  rw [← hU, ← h]
  symm
  apply Nat.mod_eq_of_lt
  generalize gpuIdx.map (fun i => arr.getD i 0) = l
  rcases List.eq_nil_or_concat l with hl | ⟨l1, v, hl⟩
  · subst hl
    simp [U32_MOD]
  · subst hl
    rw [List.concat_eq_append, List.foldl_append]
    simp only [List.foldl_cons, List.foldl_nil]
    exact Nat.mod_lt _ (by simp [U32_MOD])

/-- Appending one more item to the accumulator of `String.intercalate`. -/
theorem intercalate_go_append (sep : String) (l : List String) (x : String) :
    ∀ acc : String, String.intercalate.go acc sep (l ++ [x])
      = String.intercalate.go acc sep l ++ sep ++ x := by
  induction l with
  | nil => intro acc; simp [String.intercalate.go]
  | cons a rest ih =>
    intro acc
    show String.intercalate.go (acc ++ sep ++ a) sep (rest ++ [x]) = _
    exact ih (acc ++ sep ++ a)

/-- Joining a non-empty list extended by one item. -/
theorem intercalate_append_singleton (sep : String) (l : List String) (x : String)
    (hl : l ≠ []) :
    sep.intercalate (l ++ [x]) = sep.intercalate l ++ sep ++ x := by
  cases l with
  | nil => exact absurd rfl hl
  | cons a rest =>
    simp only [List.cons_append, String.intercalate]
    exact intercalate_go_append sep rest x a

/-- Before the last round of such a loop the text ends with a space. -/
theorem foldl_sepStep_init (e : Nat → String) (n : Nat) (str : String) :
    ∀ k : Nat, k + 1 < n →
      (List.range (k + 1)).foldl (sepStep e n) str
        = str ++ " ".intercalate ((List.range (k + 1)).map e) ++ " " := by
  intro k
  induction k with
  | zero =>
    intro h
    have h1 : (0 : Nat) + 1 ≠ n := by omega
    simp [List.range_succ, sepStep, h1, String.intercalate, String.intercalate.go]
  | succ k ih =>
    intro h
    have h1 : k + 1 + 1 ≠ n := by omega
    rw [List.range_succ, List.foldl_append, ih (by omega), List.map_append,
      List.map_singleton, intercalate_append_singleton _ _ _ (by simp)]
    simp [sepStep, h1, String.append_assoc]

/-- Such a loop over `n` items prints them joined by single spaces. -/
theorem foldl_sepStep (e : Nat → String) (n : Nat) (str : String) :
    (List.range n).foldl (sepStep e n) str
      = str ++ " ".intercalate ((List.range n).map e) := by
  cases n with
  | zero => simp [String.intercalate]
  | succ m =>
    cases m with
    | zero => simp [List.range_succ, sepStep, String.intercalate, String.intercalate.go]
    | succ k =>
      rw [List.range_succ, List.foldl_append, foldl_sepStep_init e _ str k (by omega),
        List.map_append, List.map_singleton, intercalate_append_singleton _ _ _ (by simp)]
      simp [sepStep, String.append_assoc]

/-- The per-device list of `ResToStr`: the counters of the enabled devices, in
the order of the enabled list, joined by single spaces. -/
theorem resList_eq (gpuIdx arr : List Nat) (str : String) :
    resList gpuIdx arr str
      = str ++ " ".intercalate (gpuIdx.map (fun i => formatD (arr.getD i 0))) := by
  have h := foldl_sepStep (fun i => formatD (counterAt gpuIdx arr i)) gpuIdx.length str
  have hm : (List.range gpuIdx.length).map (fun i => formatD (counterAt gpuIdx arr i))
      = gpuIdx.map (fun i => formatD (arr.getD i 0)) := by
    conv_rhs => rw [← map_getD_range gpuIdx 0]
    rw [List.map_map]
    rfl
  rw [hm] at h
  rw [← h]
  rfl

/-- The text of `ResToStr` in closed form. -/
theorem ResToStr_eq (gpuIdx arr : List Nat) :
    ResToStr gpuIdx arr
      = if 1 < gpuIdx.length ∧ (gpuIdx.map (fun i => arr.getD i 0)).sum % 2 ^ 32 ≠ 0 then
          toString ((gpuIdx.map (fun i => arr.getD i 0)).sum % 2 ^ 32) ++ " ("
            ++ " ".intercalate (gpuIdx.map (fun i => formatD (arr.getD i 0))) ++ ")"
        else
          toString ((gpuIdx.map (fun i => arr.getD i 0)).sum % 2 ^ 32) := by
  unfold ResToStr
  simp only [resList_eq, resTotal_eq]

/-! ## Share totals -/

/-- C8, as stated, fails: the total is a `U32`, so with both devices enabled and
accepted counts `2^32 - 1` and `1` the total printed is 0, not the sum `2^32`. -/
theorem ResToStr_total_counterexample :
    ¬ (∀ gpuIdx arr : List Nat, gpuIdx.Nodup → (∀ i ∈ gpuIdx, i < arr.length) →
        (∀ v ∈ arr, v < 2 ^ 32) →
        resTotal gpuIdx arr = (gpuIdx.map (fun i => arr.getD i 0)).sum) := by
  intro h
  have h1 := h [0, 1] [4294967295, 1] (by decide) (by decide) (by decide)
  exact absurd h1 (by decide)

/-- C8, amended: the total that `SolutionStats::ToString` prints for a counter
array is the sum of the counters at the enabled indices, modulo `2^32` (the sum
itself when that is below `2^32`); the per-device list holds the counters of the
enabled indices only, so the line does not depend on a counter of a device that
is not enabled; the accepted, rejected and failed parts of the line are built in
this way; with devices 0 and 2 enabled and counts `[3, 5, 2]` the total printed
is 5. -/
theorem ResToStr_total_enabled_only (gpuIdx arr : List Nat) (upFor : String)
    (s s2 : SolutionStats) :
    resTotal gpuIdx arr = (gpuIdx.map (fun i => arr.getD i 0)).sum % 2 ^ 32 ∧
    ((gpuIdx.map (fun i => arr.getD i 0)).sum < 2 ^ 32 →
      resTotal gpuIdx arr = (gpuIdx.map (fun i => arr.getD i 0)).sum) ∧
    ResToStr gpuIdx arr
      = (if 1 < gpuIdx.length ∧ resTotal gpuIdx arr ≠ 0 then
          toString (resTotal gpuIdx arr) ++ " ("
            ++ " ".intercalate (gpuIdx.map (fun i => formatD (arr.getD i 0))) ++ ")"
        else
          toString (resTotal gpuIdx arr)) ∧
    ((∀ i ∈ gpuIdx, s.accepts.getD i 0 = s2.accepts.getD i 0 ∧
        s.rejects.getD i 0 = s2.rejects.getD i 0 ∧
        s.failures.getD i 0 = s2.failures.getD i 0) →
      s.ToString gpuIdx upFor = s2.ToString gpuIdx upFor) ∧
    s.ToString gpuIdx upFor
      = "Shares: Accepted " ++ ResToStr gpuIdx s.accepts
        ++ "  Rejected " ++ ResToStr gpuIdx s.rejects
        ++ "  Failed " ++ ResToStr gpuIdx s.failures ++ " Up for " ++ upFor ∧
    ResToStr [0, 2] [3, 5, 2] = "5 (3 2)" := by
  refine ⟨resTotal_eq gpuIdx arr, ?_, ?_, ?_, ?_, by decide⟩
  · intro hlt
    rw [resTotal_eq, Nat.mod_eq_of_lt hlt]
  · rw [ResToStr_eq, resTotal_eq]
  rotate_left
  · simp only [SolutionStats.ToString, String.append_assoc]
  · intro h
    have hmap : ∀ (a b : List Nat), (∀ i ∈ gpuIdx, a.getD i 0 = b.getD i 0) →
        ResToStr gpuIdx a = ResToStr gpuIdx b := by
      intro a b hab
      have h1 : gpuIdx.map (fun i => a.getD i 0) = gpuIdx.map (fun i => b.getD i 0) :=
        List.map_congr_left hab
      have h2 : gpuIdx.map (fun i => formatD (a.getD i 0))
          = gpuIdx.map (fun i => formatD (b.getD i 0)) :=
        List.map_congr_left (fun i hi => by rw [hab i hi])
      rw [ResToStr_eq, ResToStr_eq, h1, h2]
    unfold SolutionStats.ToString
    rw [hmap s.accepts s2.accepts (fun i hi => (h i hi).1),
      hmap s.rejects s2.rejects (fun i hi => (h i hi).2.1),
      hmap s.failures s2.failures (fun i hi => (h i hi).2.2)]

/-! ## Rate line -/

/-- The loop of `WorkingProgress::ToString` is a loop of the separator kind. -/
theorem WorkingProgress_loop_eq (gpuName : Nat → String) (HashrateToString : F32 → String)
    (wp : WorkingProgress) (str : String) :
    (List.range wp.minersHasheRate.length).foldl
        (fun s i =>
          let s1 := s ++ wp.entry gpuName HashrateToString i
          if i + 1 ≠ wp.minersHasheRate.length then s1 ++ " " else s1)
        str
      = str ++ " ".intercalate
          ((List.range wp.minersHasheRate.length).map (wp.entry gpuName HashrateToString)) :=
  foldl_sepStep (wp.entry gpuName HashrateToString) wp.minersHasheRate.length str

/-- The rates 100, 200 and 0 are unchanged by `pround(_, 2)`. -/
theorem pround_examples :
    pround (F32.ofNat 100) 2 = F32.ofNat 100 ∧
    pround (F32.ofNat 200) 2 = F32.ofNat 200 ∧
    pround (F32.ofNat 0) 2 = F32.ofNat 0 := by
  decide

/-- C9: with at least two workers the line is the total, then in parentheses one
entry per worker in index order `0..n-1`, the entries separated by single
spaces, whatever the rates (a rate of 0 included); with rates 100, 200, 0 and
total 300 it shows 300 and then 100, 200 and 0 in this order. -/
theorem WorkingProgress_ToString_breakdown (gpuName : Nat → String)
    (HashrateToString : F32 → String) (wp : WorkingProgress)
    (hn : 2 ≤ wp.minersHasheRate.length) :
    wp.ToString gpuName HashrateToString
      = "Total: " ++ HashrateToString (F32.ofNat wp.totalHashRate) ++ " " ++ "("
        ++ " ".intercalate
            ((List.range wp.minersHasheRate.length).map
              (fun i => gpuName (wp.gpuGlobalIndex.getD i 0) ++ " "
                ++ HashrateToString (pround (F32.ofNat (wp.minersHasheRate.getD i 0)) 2)))
        ++ "). " ∧
    ((List.range wp.minersHasheRate.length).map
        (fun i => gpuName (wp.gpuGlobalIndex.getD i 0) ++ " "
          ++ HashrateToString (pround (F32.ofNat (wp.minersHasheRate.getD i 0)) 2))).length
      = wp.minersHasheRate.length ∧
    (wp.minersHasheRate = [100, 200, 0] → wp.totalHashRate = 300 →
      wp.ToString gpuName HashrateToString
        = "Total: " ++ HashrateToString (F32.ofNat 300) ++ " ("
          ++ gpuName (wp.gpuGlobalIndex.getD 0 0) ++ " " ++ HashrateToString (F32.ofNat 100)
          ++ " "
          ++ gpuName (wp.gpuGlobalIndex.getD 1 0) ++ " " ++ HashrateToString (F32.ofNat 200)
          ++ " "
          ++ gpuName (wp.gpuGlobalIndex.getD 2 0) ++ " " ++ HashrateToString (F32.ofNat 0)
          ++ "). ") := by
  have hline : wp.ToString gpuName HashrateToString
      = "Total: " ++ HashrateToString (F32.ofNat wp.totalHashRate) ++ " " ++ "("
        ++ " ".intercalate
            ((List.range wp.minersHasheRate.length).map
              (fun i => gpuName (wp.gpuGlobalIndex.getD i 0) ++ " "
                ++ HashrateToString (pround (F32.ofNat (wp.minersHasheRate.getD i 0)) 2)))
        ++ "). " := by
    have h1 : ¬ wp.minersHasheRate.length = 1 := by omega
    have h2 : wp.minersHasheRate.length > 1 := by omega
    unfold WorkingProgress.ToString
    simp only [h1, h2, if_false, if_true]
    rw [WorkingProgress_loop_eq]
    rfl
  refine ⟨hline, by simp, ?_⟩
  intro hr ht
  rw [hline, hr, ht]
  obtain ⟨p1, p2, p3⟩ := pround_examples
  simp [List.range_succ, String.intercalate, String.intercalate.go, p1, p2, p3,
    String.append_assoc]

/-- Witness for C9: three workers with rates 100, 200 and 0 and total 300. -/
theorem WorkingProgress_ToString_breakdown_witness :
    (⟨300, [100, 200, 0], [0, 1, 2], [0, 0, 0], [0, 0, 0]⟩ : WorkingProgress).ToString
        (fun i => "GPU" ++ toString i) (fun f => toString (F32.round f))
      = "Total: 300 (GPU0 100 GPU1 200 GPU2 0). " := by
  have h := (WorkingProgress_ToString_breakdown (fun i => "GPU" ++ toString i)
    (fun f => toString (F32.round f)) ⟨300, [100, 200, 0], [0, 1, 2], [0, 0, 0], [0, 0, 0]⟩
    (by decide)).2.2 rfl rfl
  rw [h]
  decide

/-! ## Rounding error of the single-precision operations -/

/-- The halving count is the binary logarithm when the fuel suffices. -/
theorem log2Fuel_spec : ∀ fuel n : Nat, 0 < n → n < 2 ^ fuel →
    2 ^ log2Fuel fuel n ≤ n ∧ n < 2 ^ (log2Fuel fuel n + 1) := by
  intro fuel
  induction fuel with
  | zero => intro n h0 h1; simp at h1; omega
  | succ f ih =>
    intro n h0 h1
    unfold log2Fuel
    by_cases h2 : n < 2
    · simp only [h2, if_true]
      omega
    · simp only [h2, if_false]
      have h3 : n / 2 < 2 ^ f := by
        rw [pow_succ] at h1
        omega
      obtain ⟨h4, h5⟩ := ih (n / 2) (by omega) h3
      rw [pow_succ, pow_succ]
      rw [pow_succ] at h5
      omega

/-- The leading bit position brackets the number between two powers of two. -/
theorem ilog2_spec (n : Nat) (h0 : 0 < n) : 2 ^ ilog2 n ≤ n ∧ n < 2 ^ (ilog2 n + 1) :=
  log2Fuel_spec n n h0 (Nat.lt_two_pow n)

/-- A power of two with integer exponent, split into its natural-number parts. -/
theorem two_pow_toNat (e : Int) :
    ((2 : ℚ) ^ e.toNat) = (2 : ℚ) ^ e * (2 : ℚ) ^ (-e).toNat := by
  rcases le_total 0 e with h | h
  · obtain ⟨k, rfl⟩ := Int.eq_ofNat_of_zero_le h
    simp
  · obtain ⟨k, hk⟩ := Int.eq_ofNat_of_zero_le (neg_nonneg.mpr h)
    have he : e = -(k : Int) := by omega
    subst he
    simp

/-- The exponent chosen by `ratioExp` brackets the ratio. -/
theorem ratioExp_spec (n d : Nat) (hn : 0 < n) (hd : 0 < d) :
    (2 : ℚ) ^ ratioExp n d ≤ (n : ℚ) / d ∧
    (n : ℚ) / d < (2 : ℚ) ^ (ratioExp n d + 1) := by
  obtain ⟨hn1, hn2⟩ := ilog2_spec n hn
  obtain ⟨hd1, hd2⟩ := ilog2_spec d hd
  have hdq : (0 : ℚ) < d := by exact_mod_cast hd
  have qn1 : (2 : ℚ) ^ (ilog2 n : Int) ≤ n := by
    rw [zpow_natCast]; exact_mod_cast hn1
  have qn2 : (n : ℚ) < (2 : ℚ) ^ ((ilog2 n : Int) + 1) := by
    have : (n : ℚ) < (2 : ℚ) ^ (ilog2 n + 1) := by exact_mod_cast hn2
    rw [← zpow_natCast] at this
    exact_mod_cast this
  have qd1 : (2 : ℚ) ^ (ilog2 d : Int) ≤ d := by
    rw [zpow_natCast]; exact_mod_cast hd1
  have qd2 : (d : ℚ) < (2 : ℚ) ^ ((ilog2 d : Int) + 1) := by
    have : (d : ℚ) < (2 : ℚ) ^ (ilog2 d + 1) := by exact_mod_cast hd2
    rw [← zpow_natCast] at this
    exact_mod_cast this
  have h2 : (0 : ℚ) < 2 := by norm_num
  have h2ne : (2 : ℚ) ≠ 0 := by norm_num
  set l : Int := (ilog2 n : Int) - (ilog2 d : Int) with hl
  have hK : (0 : ℚ) < (2 : ℚ) ^ (-l).toNat := by positivity
  have hcond : (d * 2 ^ l.toNat ≤ n * 2 ^ (-l).toNat) ↔ (d : ℚ) * (2 : ℚ) ^ l ≤ n := by
    have hc : (d * 2 ^ l.toNat ≤ n * 2 ^ (-l).toNat)
        ↔ (d : ℚ) * (2 : ℚ) ^ l.toNat ≤ (n : ℚ) * (2 : ℚ) ^ (-l).toNat := by
      constructor
      · intro h; exact_mod_cast h
      · intro h; exact_mod_cast h
    rw [hc, two_pow_toNat l, ← mul_assoc]
    exact mul_le_mul_right hK
  unfold ratioExp
  simp only [← hl]
  by_cases hc : d * 2 ^ l.toNat ≤ n * 2 ^ (-l).toNat
  · simp only [hc, if_true]
    constructor
    · rw [le_div_iff₀ hdq, mul_comm]
      exact hcond.mp hc
    · rw [div_lt_iff₀ hdq]
      have e1 : (2 : ℚ) ^ (l + 1) * (2 : ℚ) ^ (ilog2 d : Int)
          = (2 : ℚ) ^ ((ilog2 n : Int) + 1) := by
        rw [← zpow_add₀ h2ne]; congr 1; omega
      calc (n : ℚ) < (2 : ℚ) ^ ((ilog2 n : Int) + 1) := qn2
        _ = (2 : ℚ) ^ (l + 1) * (2 : ℚ) ^ (ilog2 d : Int) := e1.symm
        _ ≤ (2 : ℚ) ^ (l + 1) * d := by
          apply mul_le_mul_of_nonneg_left qd1; positivity
  · simp only [hc, if_false]
    have hlt : (n : ℚ) < (d : ℚ) * (2 : ℚ) ^ l := by
      rw [← not_le]; exact fun h => hc (hcond.mpr h)
    constructor
    · rw [le_div_iff₀ hdq]
      have e1 : (2 : ℚ) ^ (l - 1) * (2 : ℚ) ^ ((ilog2 d : Int) + 1)
          = (2 : ℚ) ^ (ilog2 n : Int) := by
        rw [← zpow_add₀ h2ne]; congr 1; omega
      calc (2 : ℚ) ^ (l - 1) * d ≤ (2 : ℚ) ^ (l - 1) * (2 : ℚ) ^ ((ilog2 d : Int) + 1) := by
            apply mul_le_mul_of_nonneg_left qd2.le; positivity
        _ = (2 : ℚ) ^ (ilog2 n : Int) := e1
        _ ≤ n := qn1
    · rw [div_lt_iff₀ hdq, sub_add_cancel, mul_comm]
      exact hlt

/-- Rounding to the nearest integer moves a ratio by at most one half. -/
theorem roundNearestEven_spec (num den : Nat) (hden : 0 < den) :
    (2 * (roundNearestEven num den : ℚ) - 1) * den ≤ 2 * num ∧
    2 * (num : ℚ) ≤ (2 * (roundNearestEven num den : ℚ) + 1) * den := by
  have hdiv : den * (num / den) + num % den = num := Nat.div_add_mod num den
  have hmod : num % den < den := Nat.mod_lt num hden
  generalize num / den = m at hdiv
  generalize num % den = r at hdiv hmod
  have hq : (num : ℚ) = den * m + r := by exact_mod_cast hdiv.symm
  have hr : (r : ℚ) < den := by exact_mod_cast hmod
  have hr0 : (0 : ℚ) ≤ r := by positivity
  unfold roundNearestEven
  have hN : num / den = m ∧ num % den = r := by
    have h1 : num % den = r := by
      rw [← hdiv, Nat.mul_add_mod, Nat.mod_eq_of_lt hmod]
    have h2 : num / den = m := by
      rw [← hdiv, Nat.mul_add_div hden, Nat.div_eq_of_lt hmod, Nat.add_zero]
    exact ⟨h2, h1⟩
  simp only [hN.1, hN.2]
  by_cases hc : den < 2 * r ∨ (2 * r = den ∧ m % 2 = 1)
  · simp only [hc, if_true]
    have hle : (den : ℚ) ≤ 2 * r := by
      rcases hc with h | ⟨h, _⟩
      · exact_mod_cast h.le
      · exact_mod_cast h.ge
    push_cast
    constructor <;> nlinarith
  · simp only [hc, if_false]
    have hle : 2 * (r : ℚ) ≤ den := by
      have : ¬ den < 2 * r := fun h => hc (Or.inl h)
      exact_mod_cast not_lt.mp this
    constructor <;> nlinarith

/-- Unit roundoff of single precision: the result of `F32.ofRatio` is within a
relative error of `2^-24` of the exact ratio. -/
theorem ofRatio_bounds (n d : Nat) (hd : 0 < d) :
    (1 - 1 / 2 ^ 24) * ((n : ℚ) / d) ≤ (F32.ofRatio n d).toRat ∧
    (F32.ofRatio n d).toRat ≤ (1 + 1 / 2 ^ 24) * ((n : ℚ) / d) := by
  rcases Nat.eq_zero_or_pos n with hn | hn
  · subst hn
    simp [F32.ofRatio, F32.toRat]
  have hdq : (0 : ℚ) < d := by exact_mod_cast hd
  have hnq : (0 : ℚ) < n := by exact_mod_cast hn
  have hne : ¬ (n = 0 ∨ d = 0) := by omega
  obtain ⟨hk1, _⟩ := ratioExp_spec n d hn hd
  have hnorm : ∀ (m : Nat) (e : Int),
      (if m = 2 ^ 24 then (⟨2 ^ 23, e + 1⟩ : F32) else ⟨m, e⟩).toRat
        = (m : ℚ) * (2 : ℚ) ^ e := by
    intro m e
    by_cases hm : m = 2 ^ 24
    · subst hm
      simp only [if_true, F32.toRat]
      rw [zpow_add₀ (by norm_num : (2 : ℚ) ≠ 0)]
      push_cast
      ring
    · simp only [hm, if_false, F32.toRat]
  unfold F32.ofRatio
  simp only [hne, if_false, hnorm]
  set e : Int := ratioExp n d - 23 with he
  have hK : (0 : ℚ) < (2 : ℚ) ^ (-e).toNat := by positivity
  have hE : (0 : ℚ) < (2 : ℚ) ^ e := by positivity
  have hden : 0 < d * 2 ^ e.toNat := by positivity
  obtain ⟨hr1, hr2⟩ := roundNearestEven_spec (n * 2 ^ (-e).toNat) (d * 2 ^ e.toNat) hden
  generalize roundNearestEven (n * 2 ^ (-e).toNat) (d * 2 ^ e.toNat) = m at hr1 hr2
  push_cast at hr1 hr2
  rw [two_pow_toNat e] at hr1 hr2
  -- cancel the common factor
  have hr1b : (2 * (m : ℚ) - 1) * (d * (2 : ℚ) ^ e) ≤ 2 * n := by
    have : (2 * (m : ℚ) - 1) * (d * (2 : ℚ) ^ e) * (2 : ℚ) ^ (-e).toNat
        ≤ 2 * n * (2 : ℚ) ^ (-e).toNat := by nlinarith
    exact le_of_mul_le_mul_right this hK
  have hr2b : 2 * (n : ℚ) ≤ (2 * (m : ℚ) + 1) * (d * (2 : ℚ) ^ e) := by
    have : 2 * (n : ℚ) * (2 : ℚ) ^ (-e).toNat
        ≤ (2 * (m : ℚ) + 1) * (d * (2 : ℚ) ^ e) * (2 : ℚ) ^ (-e).toNat := by nlinarith
    exact le_of_mul_le_mul_right this hK
  -- the ratio is at least `2^23` units of the last place
  have hlow : (2 : ℚ) ^ e * 2 ^ 23 ≤ (n : ℚ) / d := by
    have : (2 : ℚ) ^ e * 2 ^ 23 = (2 : ℚ) ^ ratioExp n d := by
      have h23 : ((2 : ℚ) ^ 23) = (2 : ℚ) ^ ((23 : Nat) : Int) := (zpow_natCast _ _).symm
      rw [h23, ← zpow_add₀ (by norm_num : (2 : ℚ) ≠ 0)]
      congr 1
      omega
    rw [this]
    exact hk1
  have hX : (n : ℚ) = (n : ℚ) / d * d := by field_simp
  generalize (n : ℚ) / d = X at hlow hX ⊢
  generalize (2 : ℚ) ^ e = E at hE hr1b hr2b hlow ⊢
  rw [hX] at hr1b hr2b
  have h1 : (2 * (m : ℚ) - 1) * E ≤ 2 * X := by
    have : (2 * (m : ℚ) - 1) * E * d ≤ 2 * X * d := by nlinarith
    exact le_of_mul_le_mul_right this hdq
  have h2 : 2 * X ≤ (2 * (m : ℚ) + 1) * E := by
    have : 2 * X * d ≤ (2 * (m : ℚ) + 1) * E * d := by nlinarith
    exact le_of_mul_le_mul_right this hdq
  constructor <;> nlinarith

/-- A `float` with a positive value has a non-zero significand. -/
theorem man_pos_of_toRat_pos (a : F32) (h : 0 < a.toRat) : 0 < a.man := by
  rcases Nat.eq_zero_or_pos a.man with h0 | h0
  · simp [F32.toRat, h0] at h
  · exact h0

/-- The `float` division is within relative error `2^-24` of the exact
quotient. -/
theorem div_bounds (a b : F32) (hb : 0 < b.man) :
    (1 - 1 / 2 ^ 24) * (a.toRat / b.toRat) ≤ (F32.div a b).toRat ∧
    (F32.div a b).toRat ≤ (1 + 1 / 2 ^ 24) * (a.toRat / b.toRat) := by
  have hK : (0 : ℚ) < (2 : ℚ) ^ (b.exp - a.exp).toNat := by positivity
  have hbq : (0 : ℚ) < b.man := by exact_mod_cast hb
  have hden : 0 < b.man * 2 ^ (b.exp - a.exp).toNat := by positivity
  have h := ofRatio_bounds (a.man * 2 ^ (a.exp - b.exp).toNat)
    (b.man * 2 ^ (b.exp - a.exp).toNat) hden
  have hratio : (((a.man * 2 ^ (a.exp - b.exp).toNat : Nat) : ℚ)
      / ((b.man * 2 ^ (b.exp - a.exp).toNat : Nat) : ℚ)) = a.toRat / b.toRat := by
    have hneg : b.exp - a.exp = -(a.exp - b.exp) := by omega
    push_cast
    rw [two_pow_toNat (a.exp - b.exp), ← hneg]
    unfold F32.toRat
    rw [zpow_sub₀ (by norm_num : (2 : ℚ) ≠ 0)]
    have h1 : (2 : ℚ) ^ b.exp ≠ 0 := by positivity
    field_simp
    ring
  rw [hratio] at h
  exact h

/-- The integer that `round` returns is within one half of its argument. -/
theorem round_bounds (a : F32) :
    ((F32.round a : Nat) : ℚ) ≤ a.toRat + 1 / 2 ∧
    a.toRat - 1 / 2 < ((F32.round a : Nat) : ℚ) := by
  have hK : (0 : ℚ) < (2 : ℚ) ^ (-a.exp).toNat := by positivity
  have hden : 0 < 2 * 2 ^ (-a.exp).toNat := by positivity
  have h1 : 2 * 2 ^ (-a.exp).toNat * F32.round a
      ≤ 2 * a.man * 2 ^ a.exp.toNat + 2 ^ (-a.exp).toNat :=
    Nat.mul_div_le _ _
  have h2 : 2 * a.man * 2 ^ a.exp.toNat + 2 ^ (-a.exp).toNat
      < 2 * 2 ^ (-a.exp).toNat * (F32.round a + 1) :=
    Nat.lt_mul_div_succ _ hden
  have q1 : 2 * (2 : ℚ) ^ (-a.exp).toNat * (F32.round a : Nat)
      ≤ 2 * a.man * (2 : ℚ) ^ a.exp.toNat + (2 : ℚ) ^ (-a.exp).toNat := by exact_mod_cast h1
  have q2 : 2 * (a.man : ℚ) * (2 : ℚ) ^ a.exp.toNat + (2 : ℚ) ^ (-a.exp).toNat
      < 2 * (2 : ℚ) ^ (-a.exp).toNat * ((F32.round a : Nat) + 1) := by exact_mod_cast h2
  rw [two_pow_toNat a.exp] at q1 q2
  unfold F32.toRat
  generalize ((F32.round a : Nat) : ℚ) = r at q1 q2 ⊢
  generalize (2 : ℚ) ^ (-a.exp).toNat = K at hK q1 q2
  generalize (2 : ℚ) ^ a.exp = E at q1 q2 ⊢
  generalize (a.man : ℚ) = m at q1 q2 ⊢
  have q1b : (2 * r) * K ≤ (2 * (m * E) + 1) * K := by linarith
  have q2b : (2 * (m * E) + 1) * K < (2 * (r + 1)) * K := by linarith
  have q1c := le_of_mul_le_mul_right q1b hK
  have q2c := lt_of_mul_lt_mul_right q2b hK.le
  constructor <;> linarith

/-- When the exact rate `E = hashCount * 1000 / dt` is at most `2^63`, the rounded
single-precision value in `GetHashRatePerSec` is below `2^64`, so that its
conversion to `U64` is defined and is the value itself, and it is within
`1/2 + E / 2^21` of `E`. -/
theorem hashRateOf_bound (x dt : Nat) (hdt : 0 < dt) (hrange : x * 1000 ≤ 2 ^ 63 * dt) :
    F32.round (F32.div (F32.ofNat x) (F32.div (F32.ofNat dt) ⟨1000, 0⟩)) < 2 ^ 64 ∧
    hashRateOf x dt = F32.round (F32.div (F32.ofNat x) (F32.div (F32.ofNat dt) ⟨1000, 0⟩)) ∧
    |(hashRateOf x dt : ℚ) - (x : ℚ) * 1000 / dt|
      ≤ 1 / 2 + (x : ℚ) * 1000 / dt / 2 ^ 21 := by
  have hdq : (0 : ℚ) < dt := by exact_mod_cast hdt
  have hxq : (0 : ℚ) ≤ x := by positivity
  have hE : (x : ℚ) * 1000 / dt ≤ 2 ^ 63 := by
    rw [div_le_iff₀ hdq]
    exact_mod_cast hrange
  -- the four rounded operations
  obtain ⟨hA1, hA2⟩ := ofRatio_bounds dt 1 Nat.one_pos
  obtain ⟨hC1, hC2⟩ := ofRatio_bounds x 1 Nat.one_pos
  simp only [Nat.cast_one, div_one] at hA1 hA2 hC1 hC2
  have hApos : 0 < (F32.ofNat dt).toRat := by
    unfold F32.ofNat
    have : (0 : ℚ) < (1 - 1 / 2 ^ 24) * dt := by positivity
    linarith
  obtain ⟨hB1, hB2⟩ := div_bounds (F32.ofNat dt) ⟨1000, 0⟩ (by norm_num)
  have h1000 : (⟨1000, 0⟩ : F32).toRat = 1000 := by simp [F32.toRat]
  rw [h1000] at hB1 hB2
  have hBpos : 0 < (F32.div (F32.ofNat dt) ⟨1000, 0⟩).toRat := by
    have : (0 : ℚ) < (1 - 1 / 2 ^ 24) * ((F32.ofNat dt).toRat / 1000) := by positivity
    linarith
  obtain ⟨hQ1, hQ2⟩ := div_bounds (F32.ofNat x) (F32.div (F32.ofNat dt) ⟨1000, 0⟩)
    (man_pos_of_toRat_pos _ hBpos)
  obtain ⟨hR1, hR2⟩ := round_bounds
    (F32.div (F32.ofNat x) (F32.div (F32.ofNat dt) ⟨1000, 0⟩))
  unfold F32.ofNat at hApos hB1 hB2 hBpos hQ1 hQ2 hR1 hR2
  generalize hr : F32.round (F32.div (F32.ofRatio x 1) (F32.div (F32.ofRatio dt 1) ⟨1000, 0⟩))
    = r at hR1 hR2
  generalize (F32.div (F32.ofRatio x 1) (F32.div (F32.ofRatio dt 1) ⟨1000, 0⟩)).toRat
    = Q at hQ1 hQ2 hR1 hR2
  generalize (F32.div (F32.ofRatio dt 1) ⟨1000, 0⟩).toRat = B at hB1 hB2 hBpos hQ1 hQ2
  generalize (F32.ofRatio dt 1).toRat = A at hA1 hA2 hApos hB1 hB2
  generalize (F32.ofRatio x 1).toRat = C at hC1 hC2 hQ1 hQ2
  have hBne : B ≠ 0 := ne_of_gt hBpos
  have hQB1 : (1 - 1 / 2 ^ 24) * C ≤ Q * B := by
    have := mul_le_mul_of_nonneg_right hQ1 hBpos.le
    rwa [mul_assoc, div_mul_cancel₀ _ hBne] at this
  have hQB2 : Q * B ≤ (1 + 1 / 2 ^ 24) * C := by
    have := mul_le_mul_of_nonneg_right hQ2 hBpos.le
    rwa [mul_assoc, div_mul_cancel₀ _ hBne] at this
  have hB1b : (1 - 1 / 2 ^ 24) * A ≤ 1000 * B := by linarith
  have hB2b : 1000 * B ≤ (1 + 1 / 2 ^ 24) * A := by linarith
  have hC0 : 0 ≤ C := by
    have : (0 : ℚ) ≤ (1 - 1 / 2 ^ 24) * x := by positivity
    linarith
  have hQ0 : 0 ≤ Q := by
    have h1 : 0 ≤ Q * B := by
      have : (0 : ℚ) ≤ (1 - 1 / 2 ^ 24) * C := by positivity
      linarith
    exact nonneg_of_mul_nonneg_left h1 hBpos
  have h1u : (0 : ℚ) ≤ 1 - 1 / 2 ^ 24 := by norm_num
  have h1v : (0 : ℚ) ≤ 1 + 1 / 2 ^ 24 := by norm_num
  -- the exact rate
  set E : ℚ := (x : ℚ) * 1000 / dt with hEdef
  have hEdt : E * dt = x * 1000 := by
    rw [hEdef]; field_simp
  have hE0 : 0 ≤ E := by positivity
  have hup : Q ≤ (1 + 1 / 2 ^ 21) * E := by
    have s1 : Q * ((1 - 1 / 2 ^ 24) * dt) ≤ Q * A := mul_le_mul_of_nonneg_left hA1 hQ0
    have s2 : Q * ((1 - 1 / 2 ^ 24) * A) ≤ Q * (1000 * B) := mul_le_mul_of_nonneg_left hB1b hQ0
    have t1 : Q * ((1 - 1 / 2 ^ 24) * ((1 - 1 / 2 ^ 24) * dt)) ≤ Q * ((1 - 1 / 2 ^ 24) * A) :=
      mul_le_mul_of_nonneg_left (mul_le_mul_of_nonneg_left hA1 h1u) hQ0
    have t3 : (1 + 1 / 2 ^ 24) * C ≤ (1 + 1 / 2 ^ 24) * ((1 + 1 / 2 ^ 24) * x) :=
      mul_le_mul_of_nonneg_left hC2 h1v
    have s3 : Q * ((1 - 1 / 2 ^ 24) * (1 - 1 / 2 ^ 24)) * dt
        ≤ 1000 * ((1 + 1 / 2 ^ 24) * ((1 + 1 / 2 ^ 24) * x)) := by linarith
    have s4 : 1000 * ((1 + 1 / 2 ^ 24) * ((1 + 1 / 2 ^ 24) * (x : ℚ)))
        ≤ ((1 + 1 / 2 ^ 21) * E) * ((1 - 1 / 2 ^ 24) * (1 - 1 / 2 ^ 24)) * dt := by
      have : ((1 + 1 / 2 ^ 21) * E) * ((1 - 1 / 2 ^ 24) * (1 - 1 / 2 ^ 24)) * dt
          = ((1 + 1 / 2 ^ 21) * ((1 - 1 / 2 ^ 24) * (1 - 1 / 2 ^ 24))) * (x * 1000) := by
        rw [← hEdt]; ring
      rw [this]
      have hnum : ((1 : ℚ) + 1 / 2 ^ 24) * (1 + 1 / 2 ^ 24)
          ≤ (1 + 1 / 2 ^ 21) * ((1 - 1 / 2 ^ 24) * (1 - 1 / 2 ^ 24)) := by norm_num
      have hm := mul_le_mul_of_nonneg_right hnum (by positivity : (0 : ℚ) ≤ x * 1000)
      linarith
    have s5 : Q * (((1 - 1 / 2 ^ 24) * (1 - 1 / 2 ^ 24)) * dt)
        ≤ ((1 + 1 / 2 ^ 21) * E) * (((1 - 1 / 2 ^ 24) * (1 - 1 / 2 ^ 24)) * dt) := by
      linarith
    exact le_of_mul_le_mul_right s5 (by positivity)
  have hlo : (1 - 1 / 2 ^ 21) * E ≤ Q := by
    have s1 : Q * A ≤ Q * ((1 + 1 / 2 ^ 24) * dt) := mul_le_mul_of_nonneg_left hA2 hQ0
    have s2 : Q * (1000 * B) ≤ Q * ((1 + 1 / 2 ^ 24) * A) := mul_le_mul_of_nonneg_left hB2b hQ0
    have t1 : Q * ((1 + 1 / 2 ^ 24) * A) ≤ Q * ((1 + 1 / 2 ^ 24) * ((1 + 1 / 2 ^ 24) * dt)) :=
      mul_le_mul_of_nonneg_left (mul_le_mul_of_nonneg_left hA2 h1v) hQ0
    have t3 : (1 - 1 / 2 ^ 24) * ((1 - 1 / 2 ^ 24) * x) ≤ (1 - 1 / 2 ^ 24) * C :=
      mul_le_mul_of_nonneg_left hC1 h1u
    have s3 : 1000 * ((1 - 1 / 2 ^ 24) * ((1 - 1 / 2 ^ 24) * x))
        ≤ Q * ((1 + 1 / 2 ^ 24) * (1 + 1 / 2 ^ 24)) * dt := by linarith
    have s4 : ((1 - 1 / 2 ^ 21) * E) * ((1 + 1 / 2 ^ 24) * (1 + 1 / 2 ^ 24)) * dt
        ≤ 1000 * ((1 - 1 / 2 ^ 24) * ((1 - 1 / 2 ^ 24) * (x : ℚ))) := by
      have : ((1 - 1 / 2 ^ 21) * E) * ((1 + 1 / 2 ^ 24) * (1 + 1 / 2 ^ 24)) * dt
          = ((1 - 1 / 2 ^ 21) * ((1 + 1 / 2 ^ 24) * (1 + 1 / 2 ^ 24))) * (x * 1000) := by
        rw [← hEdt]; ring
      rw [this]
      have hnum : ((1 : ℚ) - 1 / 2 ^ 21) * ((1 + 1 / 2 ^ 24) * (1 + 1 / 2 ^ 24))
          ≤ (1 - 1 / 2 ^ 24) * (1 - 1 / 2 ^ 24) := by norm_num
      have hm := mul_le_mul_of_nonneg_right hnum (by positivity : (0 : ℚ) ≤ x * 1000)
      linarith
    have s5 : ((1 - 1 / 2 ^ 21) * E) * (((1 + 1 / 2 ^ 24) * (1 + 1 / 2 ^ 24)) * dt)
        ≤ Q * (((1 + 1 / 2 ^ 24) * (1 + 1 / 2 ^ 24)) * dt) := by
      linarith
    exact le_of_mul_le_mul_right s5 (by positivity)
  -- the conversion to `U64` is in range
  have hrlt : r < 2 ^ 64 := by
    have : (r : ℚ) < 2 ^ 64 := by
      have : (1 + 1 / 2 ^ 21) * E ≤ (1 + 1 / 2 ^ 21) * 2 ^ 63 :=
        mul_le_mul_of_nonneg_left hE (by norm_num)
      have h3 : ((1 : ℚ) + 1 / 2 ^ 21) * 2 ^ 63 + 1 / 2 < 2 ^ 64 := by norm_num
      linarith
    exact_mod_cast this
  have hrate : hashRateOf x dt = r := by
    unfold hashRateOf F32.ofNat
    rw [hr]
    exact Nat.mod_eq_of_lt hrlt
  have hround : F32.round (F32.div (F32.ofNat x) (F32.div (F32.ofNat dt) ⟨1000, 0⟩)) = r := by
    unfold F32.ofNat
    exact hr
  refine ⟨by rw [hround]; exact hrlt, by rw [hround]; exact hrate, ?_⟩
  rw [hrate, abs_le]
  constructor
  · have : (1 - 1 / 2 ^ 21) * E = E - E / 2 ^ 21 := by ring
    linarith
  · have : (1 + 1 / 2 ^ 21) * E = E + E / 2 ^ 21 := by ring
    linarith

/-- The four single-precision values in the rate expression are zero or lie
well inside the normal range of binary32 (`2^-126 ≤ v < 2^128`) for every 64-bit
hash count and elapsed time, so no overflow or gradual underflow is involved. -/
theorem hashRateOf_operands_normal (x dt : Nat) (hx : x < 2 ^ 64) (hdt : 0 < dt)
    (hdt2 : dt < 2 ^ 63) :
    (1 / 2 ≤ (F32.ofNat dt).toRat ∧ (F32.ofNat dt).toRat ≤ 2 ^ 64) ∧
    (1 / 2 ^ 12 ≤ (F32.div (F32.ofNat dt) ⟨1000, 0⟩).toRat ∧
      (F32.div (F32.ofNat dt) ⟨1000, 0⟩).toRat ≤ 2 ^ 64) ∧
    ((F32.ofNat x).toRat = 0 ∨
      (1 / 2 ≤ (F32.ofNat x).toRat ∧ (F32.ofNat x).toRat ≤ 2 ^ 65)) ∧
    ((F32.div (F32.ofNat x) (F32.div (F32.ofNat dt) ⟨1000, 0⟩)).toRat = 0 ∨
      (1 / 2 ^ 66 ≤ (F32.div (F32.ofNat x) (F32.div (F32.ofNat dt) ⟨1000, 0⟩)).toRat ∧
        (F32.div (F32.ofNat x) (F32.div (F32.ofNat dt) ⟨1000, 0⟩)).toRat ≤ 2 ^ 78)) := by
  have hdq1 : (1 : ℚ) ≤ dt := by exact_mod_cast hdt
  have hdq2 : (dt : ℚ) ≤ 2 ^ 63 := by exact_mod_cast hdt2.le
  have hxq : (x : ℚ) ≤ 2 ^ 64 := by exact_mod_cast hx.le
  obtain ⟨hA1, hA2⟩ := ofRatio_bounds dt 1 Nat.one_pos
  obtain ⟨hC1, hC2⟩ := ofRatio_bounds x 1 Nat.one_pos
  simp only [Nat.cast_one, div_one] at hA1 hA2 hC1 hC2
  have hAlo : 1 / 2 ≤ (F32.ofNat dt).toRat := by
    unfold F32.ofNat; linarith
  have hAhi : (F32.ofNat dt).toRat ≤ 2 ^ 64 := by
    unfold F32.ofNat; linarith
  obtain ⟨hB1, hB2⟩ := div_bounds (F32.ofNat dt) ⟨1000, 0⟩ (by norm_num)
  have h1000 : (⟨1000, 0⟩ : F32).toRat = 1000 := by simp [F32.toRat]
  rw [h1000] at hB1 hB2
  have hBlo : 1 / 2 ^ 12 ≤ (F32.div (F32.ofNat dt) ⟨1000, 0⟩).toRat := by linarith
  have hBhi : (F32.div (F32.ofNat dt) ⟨1000, 0⟩).toRat ≤ 2 ^ 64 := by linarith
  have hBpos : 0 < (F32.div (F32.ofNat dt) ⟨1000, 0⟩).toRat := by linarith
  obtain ⟨hQ1, hQ2⟩ := div_bounds (F32.ofNat x) (F32.div (F32.ofNat dt) ⟨1000, 0⟩)
    (man_pos_of_toRat_pos _ hBpos)
  refine ⟨⟨hAlo, hAhi⟩, ⟨hBlo, hBhi⟩, ?_, ?_⟩
  · rcases Nat.eq_zero_or_pos x with h0 | h0
    · left
      subst h0
      simp [F32.ofNat, F32.ofRatio, F32.toRat]
    · right
      have hx1 : (1 : ℚ) ≤ x := by exact_mod_cast h0
      unfold F32.ofNat
      constructor <;> linarith
  · rcases Nat.eq_zero_or_pos x with h0 | h0
    · left
      subst h0
      simp [F32.ofNat, F32.ofRatio, F32.div, F32.toRat]
    · right
      have hx1 : (1 : ℚ) ≤ x := by exact_mod_cast h0
      have hClo : 1 / 2 ≤ (F32.ofNat x).toRat := by unfold F32.ofNat; linarith
      have hChi : (F32.ofNat x).toRat ≤ 2 ^ 65 := by unfold F32.ofNat; linarith
      generalize (F32.div (F32.ofNat x) (F32.div (F32.ofNat dt) ⟨1000, 0⟩)).toRat = Q
        at hQ1 hQ2 ⊢
      generalize (F32.div (F32.ofNat dt) ⟨1000, 0⟩).toRat = B at hBlo hBhi hBpos hQ1 hQ2
      generalize (F32.ofNat x).toRat = C at hClo hChi hQ1 hQ2
      have hq1 : 1 / 2 ^ 65 ≤ C / B := by
        rw [le_div_iff₀ hBpos]
        calc 1 / 2 ^ 65 * B ≤ 1 / 2 ^ 65 * 2 ^ 64 := by
              apply mul_le_mul_of_nonneg_left hBhi; positivity
          _ ≤ C := by linarith
      have hq2 : C / B ≤ 2 ^ 77 := by
        rw [div_le_iff₀ hBpos]
        calc C ≤ 2 ^ 65 := hChi
          _ = 2 ^ 77 * (1 / 2 ^ 12) := by norm_num
          _ ≤ 2 ^ 77 * B := by
              apply mul_le_mul_of_nonneg_left hBlo; positivity
      constructor <;> linarith

/-! ## Rate value -/

/-- C6, as stated, fails: the rate is computed in single precision, so
`hashCount = 33554433` over a window of 1000 ms gives 33554432, which is not
`33554433 * 1000 / 1000` rounded to the nearest integer. -/
theorem GetHashRatePerSec_rate_counterexample :
    ¬ (∀ (st : Miner Unit) (now : Nat), st.m_hashCountTime ≠ 0 →
        0 < toS64 (subU64 now st.m_hashCountTime) →
        |((st.GetHashRatePerSec now).1 : ℚ)
            - (st.m_hashCount : ℚ) * 1000 / ((toS64 (subU64 now st.m_hashCountTime)).toNat : ℚ)|
          ≤ 1 / 2) := by
  intro h
  have h1 := h (workerWith 33554433 5000 0) 6000 (by decide) (by decide)
  have hrate : ((workerWith 33554433 5000 0).GetHashRatePerSec 6000).1
      = 33554432 := by decide
  have hdt : (toS64 (subU64 6000
      (workerWith 33554433 5000 0).m_hashCountTime)).toNat = 1000 := by
    decide
  have hcount : (workerWith 33554433 5000 0).m_hashCount = 33554433 := rfl
  rw [hrate, hdt, hcount] at h1
  norm_num at h1

/-- C6, amended: for a started window and a positive elapsed time `dt` (in
milliseconds) for which the exact rate `E = hashCount * 1000 / dt` is at most
`2^63`, `GetHashRatePerSec()` returns the single-precision evaluation of
`hashCount / (dt / 1000)` rounded to an integer, a value below `2^64` (so that
its conversion to `U64` is defined) that differs from `E` by at most
`1/2 + E / 2^21`; hash counts 100, 200 and 0 over 1000 ms give 100, 200 and
0. -/
theorem GetHashRatePerSec_rate (st : Miner Work) (now : Nat)
    (hstart : st.m_hashCountTime ≠ 0)
    (hdt : 0 < toS64 (subU64 now st.m_hashCountTime))
    (hrange : st.m_hashCount * 1000
      ≤ 2 ^ 63 * (toS64 (subU64 now st.m_hashCountTime)).toNat) :
    (st.GetHashRatePerSec now).1
      = F32.round (F32.div (F32.ofNat st.m_hashCount)
          (F32.div (F32.ofNat (toS64 (subU64 now st.m_hashCountTime)).toNat) ⟨1000, 0⟩)) ∧
    (st.GetHashRatePerSec now).1 < 2 ^ 64 ∧
    |((st.GetHashRatePerSec now).1 : ℚ)
        - (st.m_hashCount : ℚ) * 1000 / ((toS64 (subU64 now st.m_hashCountTime)).toNat : ℚ)|
      ≤ 1 / 2 + (st.m_hashCount : ℚ) * 1000
          / ((toS64 (subU64 now st.m_hashCountTime)).toNat : ℚ) / 2 ^ 21 ∧
    ((workerWith 100 5000 0).GetHashRatePerSec 6000).1 = 100 ∧
    ((workerWith 200 5000 0).GetHashRatePerSec 6000).1 = 200 ∧
    ((workerWith 0 5000 0).GetHashRatePerSec 6000).1 = 0 := by
  have hval : (st.GetHashRatePerSec now).1
      = hashRateOf st.m_hashCount (toS64 (subU64 now st.m_hashCountTime)).toNat := by
    unfold Miner.GetHashRatePerSec
    simp [hstart, hdt]
  have hpos : 0 < (toS64 (subU64 now st.m_hashCountTime)).toNat := by omega
  obtain ⟨h1, h2, h3⟩ := hashRateOf_bound _ _ hpos hrange
  refine ⟨by rw [hval]; exact h2, by rw [hval, h2]; exact h1, ?_, by decide, by decide,
    by decide⟩
  rw [hval]
  exact h3

/-- Witness for C6 (amended): hash count 100, window started at 5000 ms, queried
at 6000 ms. -/
theorem GetHashRatePerSec_rate_witness :
    ((workerWith 100 5000 0).GetHashRatePerSec 6000).1
      = F32.round (F32.div (F32.ofNat 100)
          (F32.div (F32.ofNat (toS64 (subU64 6000 5000)).toNat) ⟨1000, 0⟩)) ∧
    ((workerWith 100 5000 0).GetHashRatePerSec 6000).1 < 2 ^ 64 ∧
    |(((workerWith 100 5000 0).GetHashRatePerSec 6000).1 : ℚ)
        - ((100 : Nat) : ℚ) * 1000 / ((toS64 (subU64 6000 5000)).toNat : ℚ)|
      ≤ 1 / 2 + ((100 : Nat) : ℚ) * 1000 / ((toS64 (subU64 6000 5000)).toNat : ℚ) / 2 ^ 21 ∧
    ((workerWith 100 5000 0).GetHashRatePerSec 6000).1 = 100 ∧
    ((workerWith 200 5000 0).GetHashRatePerSec 6000).1 = 200 ∧
    ((workerWith 0 5000 0).GetHashRatePerSec 6000).1 = 0 :=
  GetHashRatePerSec_rate (workerWith 100 5000 0) 6000
    (by decide) (by decide) (by decide)

/-! ## Control signals -/

/-- C17: `Pause()` changes only `workReadyEvent`, which it leaves unsignaled, and
`SetWorkpackageDirty()` changes only `dirtyFlag`, which it sets, leaving the
event as it is; both keep `hashCount`, `hashCountWindowStart`, `resetPending`
and `currentWork`. -/
theorem Pause_SetWorkpackageDirty_frame (st : Miner Work) :
    st.Pause = { st with m_workReadyEvent := { m_isDone := false } } ∧
    st.SetWorkpackageDirty = { st with m_workpackageDirty := 1 } ∧
    (st.Pause.m_workReadyEvent.m_isDone = false ∧
      st.Pause.m_hashCount = st.m_hashCount ∧
      st.Pause.m_hashCountTime = st.m_hashCountTime ∧
      st.Pause.m_resetHashRateTime = st.m_resetHashRateTime ∧
      st.Pause.m_workTemplate = st.m_workTemplate ∧
      st.Pause.m_workpackageDirty = st.m_workpackageDirty) ∧
    (st.SetWorkpackageDirty.m_workpackageDirty = 1 ∧
      st.SetWorkpackageDirty.m_workReadyEvent = st.m_workReadyEvent ∧
      st.SetWorkpackageDirty.m_hashCount = st.m_hashCount ∧
      st.SetWorkpackageDirty.m_hashCountTime = st.m_hashCountTime ∧
      st.SetWorkpackageDirty.m_resetHashRateTime = st.m_resetHashRateTime ∧
      st.SetWorkpackageDirty.m_workTemplate = st.m_workTemplate) := by
  refine ⟨rfl, rfl, ?_, ?_⟩
  · simp [Miner.Pause, Event.Reset]
  · simp [Miner.SetWorkpackageDirty, AtomicSet]

/-! ## A window that never started -/

/-- On a worker whose window never started and that has no reset pending, an
accounting operation keeps both fields at zero. -/
theorem step_keeps_unstarted (st : Miner Work) (now : Nat) (op : MinerOp Work)
    (hstart : st.m_hashCountTime = 0) (hreset : st.m_resetHashRateTime = 0)
    (hop : op.isAccounting = true) :
    (st.step now op).m_hashCountTime = 0 ∧ (st.step now op).m_resetHashRateTime = 0 := by
  cases op <;> simp [MinerOp.isAccounting] at hop
  · simp [Miner.step, Miner.AddHashCount, AtomicSet, hreset, hstart]
  · simp [Miner.step, Miner.TryResetHashCount, AtomicSet, hreset, hstart]
  · simp [Miner.step, Miner.GetHashRatePerSec, hreset, hstart]

/-- C19: from a state with `hashCountWindowStart = 0` and `resetPending = 0`,
every finite sequence of `AddHashCount`, `TryResetHashCount` and
`GetHashRatePerSec` calls, at any clock readings, keeps both fields at zero
after each of its calls, and every `GetHashRatePerSec` call in it returns 0. -/
theorem unstarted_window_stays_unstarted (ops : List (Nat × MinerOp Work)) :
    ∀ st : Miner Work, st.m_hashCountTime = 0 → st.m_resetHashRateTime = 0 →
      (∀ p ∈ ops, p.2.isAccounting = true) →
      (∀ k, (st.run (ops.take k)).m_hashCountTime = 0 ∧
        (st.run (ops.take k)).m_resetHashRateTime = 0) ∧
      (st.run ops).m_hashCountTime = 0 ∧ (st.run ops).m_resetHashRateTime = 0 ∧
      ∀ r ∈ st.rates ops, r = 0 := by
  induction ops with
  | nil =>
    intro st hstart hreset _
    simp [Miner.run, Miner.rates, hstart, hreset]
  | cons p rest ih =>
    intro st hstart hreset hops
    obtain ⟨now, op⟩ := p
    have hop : op.isAccounting = true := hops (now, op) (List.mem_cons_self _ _)
    have hrest : ∀ q ∈ rest, q.2.isAccounting = true :=
      fun q hq => hops q (List.mem_cons_of_mem _ hq)
    obtain ⟨h1, h2⟩ := step_keeps_unstarted st now op hstart hreset hop
    obtain ⟨ihk, ih1, ih2, ih3⟩ := ih (st.step now op) h1 h2 hrest
    refine ⟨?_, ih1, ih2, ?_⟩
    · intro k
      cases k with
      | zero => simp [Miner.run, hstart, hreset]
      | succ k => exact ihk k
    · intro r hr
      cases op <;> simp [MinerOp.isAccounting] at hop
      · exact ih3 r hr
      · exact ih3 r hr
      · simp only [Miner.rates, List.mem_cons] at hr
        rcases hr with hr | hr
        · rw [hr]
          simp [Miner.GetHashRatePerSec, hstart]
        · exact ih3 r hr

/-- Witness for C19: a worker that never started, 40 hashes added, a reset
attempt, then two rate queries around 2 more hashes. -/
theorem unstarted_window_stays_unstarted_witness :
    (∀ k, ((workerWith 0 0 0).run
        (([(10, .addHashCount 40), (20, .tryResetHashCount), (1020, .getHashRatePerSec),
          (1030, .addHashCount 2), (2020, .getHashRatePerSec)] :
            List (Nat × MinerOp Unit)).take k)).m_hashCountTime = 0 ∧
      ((workerWith 0 0 0).run
        (([(10, .addHashCount 40), (20, .tryResetHashCount), (1020, .getHashRatePerSec),
          (1030, .addHashCount 2), (2020, .getHashRatePerSec)] :
            List (Nat × MinerOp Unit)).take k)).m_resetHashRateTime = 0) ∧
    ((workerWith 0 0 0).run
        [(10, .addHashCount 40), (20, .tryResetHashCount), (1020, .getHashRatePerSec),
          (1030, .addHashCount 2), (2020, .getHashRatePerSec)]).m_hashCountTime = 0 ∧
    ((workerWith 0 0 0).run
        [(10, .addHashCount 40), (20, .tryResetHashCount), (1020, .getHashRatePerSec),
          (1030, .addHashCount 2), (2020, .getHashRatePerSec)]).m_resetHashRateTime = 0 ∧
    ∀ r ∈ (workerWith 0 0 0).rates
        [(10, .addHashCount 40), (20, .tryResetHashCount), (1020, .getHashRatePerSec),
          (1030, .addHashCount 2), (2020, .getHashRatePerSec)], r = 0 :=
  unstarted_window_stays_unstarted _ (workerWith 0 0 0) rfl rfl (by decide)

/-! ## Work loop -/

/-- Steps that return `true` are passed over: the loop started at step `i` ends
as the loop started at the first step `i + n` that does not return `true`. -/
theorem WorkLoopFrom_skip (steps : Nat → StepOutcome) :
    ∀ (n i fuel : Nat), (∀ j, j < n → steps (i + j) = .returnsTrue) →
      steps (i + n) ≠ .returnsTrue → n < fuel →
      WorkLoopFrom steps fuel i = some (loopRunAt (i + n) (steps (i + n))) := by
  intro n
  induction n with
  | zero =>
    intro i fuel _ hne hfuel
    obtain ⟨f, rfl⟩ : ∃ f, fuel = f + 1 := ⟨fuel - 1, by omega⟩
    simp only [Nat.add_zero] at hne ⊢
    unfold WorkLoopFrom
    cases h : steps i with
    | returnsTrue => exact absurd h hne
    | returnsFalse => rfl
    | throwsClError => rfl
    | throwsOther => rfl
  | succ n ih =>
    intro i fuel htrue hne hfuel
    obtain ⟨f, rfl⟩ : ∃ f, fuel = f + 1 := ⟨fuel - 1, by omega⟩
    have h0 : steps i = .returnsTrue := by
      have := htrue 0 (by omega)
      simpa using this
    have hshift : i + (n + 1) = i + 1 + n := by omega
    unfold WorkLoopFrom
    rw [h0]
    simp only
    rw [hshift] at hne ⊢
    apply ih (i + 1) f _ hne (by omega)
    intro j hj
    have := htrue (j + 1) (by omega)
    rw [← this]
    congr 1
    omega

/-- While every step returns `true` the loop is still running. -/
theorem WorkLoopFrom_running (steps : Nat → StepOutcome) :
    ∀ (fuel i : Nat), (∀ j, j < fuel → steps (i + j) = .returnsTrue) →
      WorkLoopFrom steps fuel i = none := by
  intro fuel
  induction fuel with
  | zero => intro i _; rfl
  | succ f ih =>
    intro i htrue
    have h0 : steps i = .returnsTrue := by
      have := htrue 0 (by omega)
      simpa using this
    unfold WorkLoopFrom
    rw [h0]
    simp only
    apply ih (i + 1)
    intro j hj
    have := htrue (j + 1) (by omega)
    rw [← this]
    congr 1
    omega

/-- C11: `WorkLoop` calls `WorkLoopStep()` in order up to the first call that does
not return `true` and makes no call after it; it returns normally when that call
returned `false` or threw something that is not a `cl::Error` (which is caught
and logged), and it throws the `cl::Error` again when that call threw one; as
long as every call returns `true` the loop keeps running. -/
theorem WorkLoop_ends_at_first_exit (steps : Nat → StepOutcome) (k fuel : Nat)
    (htrue : ∀ j, j < k → steps j = .returnsTrue) (hfuel : k < fuel) :
    (steps k = .returnsFalse → WorkLoop steps fuel = some ⟨k + 1, [], .returned⟩) ∧
    (steps k = .throwsOther →
      WorkLoop steps fuel = some ⟨k + 1, [.unknownException], .returned⟩) ∧
    (steps k = .throwsClError →
      WorkLoop steps fuel = some ⟨k + 1, [.openCLError], .rethrown⟩) ∧
    (steps k = .returnsTrue → WorkLoop steps (k + 1) = none) := by
  have hskip : steps k ≠ .returnsTrue →
      WorkLoop steps fuel = some (loopRunAt k (steps k)) := by
    intro hne
    have h := WorkLoopFrom_skip steps k 0 fuel
      (by intro j hj; rw [Nat.zero_add]; exact htrue j hj)
      (by rw [Nat.zero_add]; exact hne) hfuel
    rw [Nat.zero_add] at h
    exact h
  refine ⟨?_, ?_, ?_, ?_⟩
  · intro h
    rw [hskip (by rw [h]; decide), h]
    rfl
  · intro h
    rw [hskip (by rw [h]; decide), h]
    rfl
  · intro h
    rw [hskip (by rw [h]; decide), h]
    rfl
  · intro h
    apply WorkLoopFrom_running steps (k + 1) 0
    intro j hj
    rw [Nat.zero_add]
    rcases Nat.lt_or_ge j k with hlt | hge
    · exact htrue j hlt
    · have : j = k := by omega
      rw [this]; exact h

/-- Witness for C11: two steps return `true`, the third throws something that is
not a `cl::Error`. -/
theorem WorkLoop_ends_at_first_exit_witness :
    ((fun i => if i < 2 then StepOutcome.returnsTrue else StepOutcome.throwsOther) 2
        = .returnsFalse →
      WorkLoop (fun i => if i < 2 then .returnsTrue else .throwsOther) 5
        = some ⟨2 + 1, [], .returned⟩) ∧
    ((fun i => if i < 2 then StepOutcome.returnsTrue else StepOutcome.throwsOther) 2
        = .throwsOther →
      WorkLoop (fun i => if i < 2 then .returnsTrue else .throwsOther) 5
        = some ⟨2 + 1, [.unknownException], .returned⟩) ∧
    ((fun i => if i < 2 then StepOutcome.returnsTrue else StepOutcome.throwsOther) 2
        = .throwsClError →
      WorkLoop (fun i => if i < 2 then .returnsTrue else .throwsOther) 5
        = some ⟨2 + 1, [.openCLError], .rethrown⟩) ∧
    ((fun i => if i < 2 then StepOutcome.returnsTrue else StepOutcome.throwsOther) 2
        = .returnsTrue →
      WorkLoop (fun i => if i < 2 then .returnsTrue else .throwsOther) (2 + 1) = none) :=
  WorkLoop_ends_at_first_exit (fun i => if i < 2 then .returnsTrue else .throwsOther) 2 5
    (by intro j hj; simp [hj]) (by decide)

/-! ## CRC-32 -/

set_option maxRecDepth 100000 in
/-- Every entry of `crc32_table` is its index put through eight bit steps. -/
theorem crc32_table_eq : crc32_table = (List.range 256).map (crc32BitStepSpec^[8]) := by
  decide

/-- Reading the table at an index below 256 gives the eight bit steps of the
index. -/
theorem crc32_table_get (i : Nat) (h : i < 256) :
    crc32_table[i]? = some (crc32BitStepSpec^[8] i) := by
  rw [crc32_table_eq, List.getElem?_map, List.getElem?_range h]
  rfl

/-- The bit step is linear over xor. -/
theorem crc32BitStepSpec_xor (x y : Nat) :
    crc32BitStepSpec (x ^^^ y) = crc32BitStepSpec x ^^^ crc32BitStepSpec y := by
  unfold crc32BitStepSpec
  have hs : (x ^^^ y) >>> 1 = x >>> 1 ^^^ y >>> 1 := by
    apply Nat.eq_of_testBit_eq
    intro i
    simp only [Nat.testBit_shiftRight, Nat.testBit_xor]
  have hm : (x ^^^ y) % 2 = (x + y) % 2 := Nat.xor_mod_two_eq
  rcases Nat.mod_two_eq_zero_or_one x with hx | hx <;>
    rcases Nat.mod_two_eq_zero_or_one y with hy | hy
  · have : (x ^^^ y) % 2 = 0 := by rw [hm]; omega
    simp [this, hx, hy, hs]
  · have : (x ^^^ y) % 2 = 1 := by rw [hm]; omega
    simp [this, hx, hy, hs, Nat.xor_assoc]
  · have : (x ^^^ y) % 2 = 1 := by rw [hm]; omega
    simp only [this, hx, hy, hs, if_true]
    simp only [Nat.xor_assoc, Nat.xor_comm (y >>> 1)]
    simp
  · have : (x ^^^ y) % 2 = 0 := by rw [hm]; omega
    simp only [this, hx, hy, hs, if_true]
    simp
    rw [Nat.xor_assoc, ← Nat.xor_assoc 3988292384, Nat.xor_comm 3988292384 (y >>> 1),
      Nat.xor_assoc (y >>> 1), Nat.xor_self, Nat.xor_zero]

/-- Iterated bit steps are linear over xor. -/
theorem crc32BitStepSpec_iterate_xor (n : Nat) :
    ∀ x y : Nat, crc32BitStepSpec^[n] (x ^^^ y)
      = crc32BitStepSpec^[n] x ^^^ crc32BitStepSpec^[n] y := by
  induction n with
  | zero => intro x y; rfl
  | succ n ih =>
    intro x y
    simp only [Function.iterate_succ, Function.comp_apply]
    rw [crc32BitStepSpec_xor, ih]

/-- A bit step on an even number is a plain shift. -/
theorem crc32BitStepSpec_double (k : Nat) : crc32BitStepSpec (2 * k) = k := by
  unfold crc32BitStepSpec
  have h : (2 * k) % 2 = 0 := by omega
  have h2 : (2 * k) >>> 1 = k := by
    rw [Nat.shiftRight_eq_div_pow]
    omega
  simp [h, h2]

/-- Bit steps on a number with `n` zero low bits shift them out. -/
theorem crc32BitStepSpec_iterate_shift (n : Nat) :
    ∀ h : Nat, crc32BitStepSpec^[n] (h * 2 ^ n) = h := by
  induction n with
  | zero => intro h; simp
  | succ n ih =>
    intro h
    simp only [Function.iterate_succ, Function.comp_apply]
    have e : h * 2 ^ (n + 1) = 2 * (h * 2 ^ n) := by ring
    rw [e, crc32BitStepSpec_double, ih]

/-- A 32-bit value with a byte xored in, split into its upper 24 bits and the
low byte. -/
theorem xor_byte_split (crc b : Nat) (hb : b < 256) :
    crc ^^^ b = ((crc >>> 8) * 2 ^ 8) ^^^ ((crc % 256) ^^^ b) := by
  apply Nat.eq_of_testBit_eq
  intro i
  have h256 : (256 : Nat) = 2 ^ 8 := by norm_num
  have hsh : (crc >>> 8) * 2 ^ 8 = (crc >>> 8) <<< 8 := (Nat.shiftLeft_eq _ _).symm
  rw [hsh, h256]
  simp only [Nat.testBit_xor, Nat.testBit_shiftLeft, Nat.testBit_shiftRight,
    Nat.testBit_mod_two_pow]
  by_cases hi : i < 8
  · simp [hi, Nat.not_le.mpr hi]
  · have hge : 8 ≤ i := Nat.le_of_not_lt hi
    have hbi : b.testBit i = false := by
      apply Nat.testBit_lt_two_pow
      calc b < 2 ^ 8 := by omega
        _ ≤ 2 ^ i := Nat.pow_le_pow_right (by norm_num) hge
    have e : 8 + (i - 8) = i := by omega
    simp [hi, hge, hbi, e]

/-- The table step of `RH_crc32_rec` is the bit-by-bit byte step. -/
theorem table_step_eq (crc b : Nat) (hb : b < 256) :
    crc32_table[(crc % 256) ^^^ (b % 256)]?
      = some (crc32BitStepSpec^[8] ((crc % 256) ^^^ b)) ∧
    crc32BitStepSpec^[8] ((crc % 256) ^^^ b) ^^^ (crc >>> 8) = crc32ByteSpec crc b := by
  have hbm : b % 256 = b := Nat.mod_eq_of_lt hb
  have hidx : (crc % 256) ^^^ b < 256 := by
    have h1 : crc % 256 < 2 ^ 8 := by omega
    have h2 : b < 2 ^ 8 := by omega
    exact Nat.xor_lt_two_pow h1 h2
  refine ⟨by rw [hbm]; exact crc32_table_get _ hidx, ?_⟩
  unfold crc32ByteSpec
  conv_rhs => rw [xor_byte_split crc b hb]
  rw [crc32BitStepSpec_iterate_xor 8 (crc >>> 8 * 2 ^ 8) (crc % 256 ^^^ b),
    crc32BitStepSpec_iterate_shift 8 (crc >>> 8), Nat.xor_comm]

/-- At a NUL `RH_crc32_rec` returns the final xor. -/
theorem RH_crc32_rec_nul (crc : Nat) (rest : List Nat) :
    RH_crc32_rec crc (0 :: rest) = some (crc ^^^ 0xFFFFFFFF) := by
  rfl

set_option maxRecDepth 100000 in
/-- At a byte that is not NUL `RH_crc32_rec` goes on with the table step. -/
theorem RH_crc32_rec_cons (crc c t : Nat) (s : List Nat) (hc : c ≠ 0)
    (ht : crc32_table[(crc % 256) ^^^ (c % 256)]? = some t) :
    RH_crc32_rec crc (c :: s) = RH_crc32_rec (t ^^^ (crc >>> 8)) s := by
  rw [RH_crc32_rec, if_neg hc, ht]

/-- On a NUL-terminated string `RH_crc32_rec` folds the bit-by-bit byte step over
the bytes before the NUL and applies the final xor. -/
theorem RH_crc32_rec_eq_fold (bytes : List Nat) :
    ∀ (crc : Nat) (rest : List Nat), (∀ b ∈ bytes, b ≠ 0 ∧ b < 256) →
      RH_crc32_rec crc (bytes ++ 0 :: rest)
        = some (bytes.foldl crc32ByteSpec crc ^^^ 0xFFFFFFFF) := by
  induction bytes with
  | nil =>
    intro crc rest _
    exact RH_crc32_rec_nul crc rest
  | cons b bs ih =>
    intro crc rest hb
    obtain ⟨hb0, hb1⟩ := hb b (List.mem_cons_self _ _)
    obtain ⟨h1, h2⟩ := table_step_eq crc b hb1
    rw [List.cons_append, RH_crc32_rec_cons crc b _ _ hb0 h1, List.foldl_cons, h2]
    exact ih _ rest (fun x hx => hb x (List.mem_cons_of_mem _ hx))

set_option maxRecDepth 100000 in
/-- Every entry of `crc32_table` fits in 32 bits. -/
theorem crc32_table_lt : ∀ t ∈ crc32_table, t < 2 ^ 32 := by
  decide

set_option maxRecDepth 100000 in
/-- The check value of CRC-32: the string "123456789" has CRC `0xCBF43926`. -/
theorem RH_crc32_rec_check_value :
    RH_crc32_rec 0xFFFFFFFF [49, 50, 51, 52, 53, 54, 55, 56, 57, 0] = some 0xCBF43926 := by
  decide

/-- The byte step keeps a 32-bit value within 32 bits, so the `U32` arithmetic of
`RH_crc32_rec` never wraps. -/
theorem crc32ByteSpec_lt (crc b : Nat) (hcrc : crc < 2 ^ 32) (hb : b < 256) :
    crc32ByteSpec crc b < 2 ^ 32 := by
  obtain ⟨h1, h2⟩ := table_step_eq crc b hb
  rw [← h2]
  have hmem : crc32BitStepSpec^[8] ((crc % 256) ^^^ b) ∈ crc32_table :=
    List.getElem?_mem h1
  have hsh : crc >>> 8 < 2 ^ 32 := by
    rw [Nat.shiftRight_eq_div_pow]
    exact lt_of_le_of_lt (Nat.div_le_self _ _) hcrc
  exact Nat.xor_lt_two_pow (crc32_table_lt _ hmem) hsh

/-- Folding the byte step keeps the value within 32 bits. -/
theorem foldl_crc32ByteSpec_lt (bytes : List Nat) :
    ∀ crc : Nat, crc < 2 ^ 32 → (∀ b ∈ bytes, b ≠ 0 ∧ b < 256) →
      bytes.foldl crc32ByteSpec crc < 2 ^ 32 := by
  induction bytes with
  | nil => intro crc h _; exact h
  | cons b bs ih =>
    intro crc h hb
    rw [List.foldl_cons]
    exact ih _ (crc32ByteSpec_lt crc b h (hb b (List.mem_cons_self _ _)).2)
      (fun x hx => hb x (List.mem_cons_of_mem _ hx))

/-- C20: on every NUL-terminated byte string `RH_crc32_rec(0xFFFFFFFF, s)` returns
(it is a total function, and its result is not the out-of-range marker), it
reads `crc32_table` only at indices below 256, and its value is the standard
reflected CRC-32 of the bytes before the NUL computed bit by bit, a 32-bit
value; each of the 256 table entries is its index put through eight bit steps,
and the CRC of "123456789" is `0xCBF43926`. -/
theorem RH_crc32_rec_is_crc32 (bytes rest : List Nat)
    (hbytes : ∀ b ∈ bytes, b ≠ 0 ∧ b < 256) :
    RH_crc32_rec 0xFFFFFFFF (bytes ++ 0 :: rest) = some (crc32BitwiseSpec bytes) ∧
    crc32BitwiseSpec bytes < 2 ^ 32 ∧
    (∀ crc c : Nat, (crc % 256) ^^^ (c % 256) < 256) ∧
    crc32_table.length = 256 ∧
    (∀ i, i < 256 → crc32_table[i]? = some (crc32BitStepSpec^[8] i)) ∧
    RH_crc32_rec 0xFFFFFFFF [49, 50, 51, 52, 53, 54, 55, 56, 57, 0] = some 0xCBF43926 := by
  refine ⟨RH_crc32_rec_eq_fold bytes _ rest hbytes, ?_, ?_, ?_, crc32_table_get,
    RH_crc32_rec_check_value⟩
  · unfold crc32BitwiseSpec
    exact Nat.xor_lt_two_pow (foldl_crc32ByteSpec_lt bytes _ (by norm_num) hbytes)
      (by norm_num)
  · intro crc c
    have h1 : crc % 256 < 2 ^ 8 := by omega
    have h2 : c % 256 < 2 ^ 8 := by omega
    exact Nat.xor_lt_two_pow h1 h2
  · rw [crc32_table_eq]
    simp

/-- Witness for C20: the string "abc" followed by its NUL and further memory. -/
theorem RH_crc32_rec_is_crc32_witness :
    RH_crc32_rec 0xFFFFFFFF ([97, 98, 99] ++ 0 :: [7, 7]) = some (crc32BitwiseSpec [97, 98, 99]) ∧
    crc32BitwiseSpec [97, 98, 99] < 2 ^ 32 ∧
    (∀ crc c : Nat, (crc % 256) ^^^ (c % 256) < 256) ∧
    crc32_table.length = 256 ∧
    (∀ i, i < 256 → crc32_table[i]? = some (crc32BitStepSpec^[8] i)) ∧
    RH_crc32_rec 0xFFFFFFFF [49, 50, 51, 52, 53, 54, 55, 56, 57, 0] = some 0xCBF43926 :=
  RH_crc32_rec_is_crc32 [97, 98, 99] [7, 7] (by decide)

/-! ## Share line -/

/-- C13, as stated, fails: with two devices enabled and all three totals
non-zero the line has a single space before "Up for", not two. -/
theorem SolutionStats_ToString_form_counterexample :
    ¬ (∀ (gpuIdx : List Nat) (upFor : String) (s : SolutionStats),
        s.ToString gpuIdx upFor
          = "Shares: Accepted "
            ++ (toString (resTotal gpuIdx s.accepts) ++ " ("
              ++ " ".intercalate (gpuIdx.map (fun i => formatD (s.accepts.getD i 0))) ++ ")")
            ++ "  Rejected "
            ++ (toString (resTotal gpuIdx s.rejects) ++ " ("
              ++ " ".intercalate (gpuIdx.map (fun i => formatD (s.rejects.getD i 0))) ++ ")")
            ++ "  Failed "
            ++ (toString (resTotal gpuIdx s.failures) ++ " ("
              ++ " ".intercalate (gpuIdx.map (fun i => formatD (s.failures.getD i 0))) ++ ")")
            ++ "  Up for " ++ upFor) := by
  intro h
  have h1 := h [0, 1] "1h" ⟨[1, 2], [3, 4], [5, 6]⟩
  have h2 : (⟨[1, 2], [3, 4], [5, 6]⟩ : SolutionStats).ToString [0, 1] "1h"
      = "Shares: Accepted 3 (1 2)  Rejected 7 (3 4)  Failed 11 (5 6) Up for 1h" := by decide
  rw [h2] at h1
  exact absurd h1 (by decide)

/-- C13, amended: the line is "Shares: Accepted <A>  Rejected <R>  Failed <F> Up
for <duration>", with two spaces before "Rejected" and before "Failed" and one
space before "Up for"; each of `<A>`, `<R>`, `<F>` is the total, followed by
" (<per-device counts>)" only when more than one device is enabled and the
total is not 0; `<duration>` is the text of `SecondsToStr`. -/
theorem SolutionStats_ToString_form (gpuIdx : List Nat) (upFor : String)
    (s : SolutionStats) :
    s.ToString gpuIdx upFor
      = "Shares: Accepted "
        ++ (if 1 < gpuIdx.length ∧ resTotal gpuIdx s.accepts ≠ 0 then
              toString (resTotal gpuIdx s.accepts) ++ " ("
                ++ " ".intercalate (gpuIdx.map (fun i => formatD (s.accepts.getD i 0))) ++ ")"
            else toString (resTotal gpuIdx s.accepts))
        ++ "  Rejected "
        ++ (if 1 < gpuIdx.length ∧ resTotal gpuIdx s.rejects ≠ 0 then
              toString (resTotal gpuIdx s.rejects) ++ " ("
                ++ " ".intercalate (gpuIdx.map (fun i => formatD (s.rejects.getD i 0))) ++ ")"
            else toString (resTotal gpuIdx s.rejects))
        ++ "  Failed "
        ++ (if 1 < gpuIdx.length ∧ resTotal gpuIdx s.failures ≠ 0 then
              toString (resTotal gpuIdx s.failures) ++ " ("
                ++ " ".intercalate (gpuIdx.map (fun i => formatD (s.failures.getD i 0))) ++ ")"
            else toString (resTotal gpuIdx s.failures))
        ++ " Up for " ++ upFor := by
  have hseg : ∀ arr : List Nat, ResToStr gpuIdx arr
      = (if 1 < gpuIdx.length ∧ resTotal gpuIdx arr ≠ 0 then
            toString (resTotal gpuIdx arr) ++ " ("
              ++ " ".intercalate (gpuIdx.map (fun i => formatD (arr.getD i 0))) ++ ")"
          else toString (resTotal gpuIdx arr)) := by
    intro arr
    rw [ResToStr_eq, resTotal_eq]
  simp only [SolutionStats.ToString, String.append_assoc, hseg]

/-! ## Count segments -/

/-- A counter below `2^31` is printed by `%d` as its decimal value. -/
theorem formatD_of_lt (v : Nat) (h : v < 2 ^ 31) : formatD v = toString v := by
  have h1 : v % U32_MOD = v := Nat.mod_eq_of_lt (by unfold U32_MOD; omega)
  unfold formatD
  rw [h1, if_pos h]

/-- C18, as stated, fails: with three devices enabled and `2^31 - 1` on each, the
total printed is 2147483645, which is not the sum of the listed counts. -/
theorem ResToStr_segment_counterexample :
    ¬ (∀ gpuIdx arr : List Nat, (∀ v ∈ arr, v < 2 ^ 31) →
        1 < gpuIdx.length ∧ resTotal gpuIdx arr ≠ 0 →
        ResToStr gpuIdx arr
          = toString (resTotal gpuIdx arr) ++ " ("
            ++ " ".intercalate (gpuIdx.map (fun i => toString (arr.getD i 0))) ++ ")" ∧
        (gpuIdx.map (fun i => arr.getD i 0)).sum = resTotal gpuIdx arr) := by
  intro h
  have h1 := (h [0, 1, 2] [2147483647, 2147483647, 2147483647] (by decide) (by decide)).2
  exact absurd h1 (by decide)

/-- C18, amended: a count segment is the decimal total alone when at most one
device is enabled or the total is 0; otherwise it is the total, " (", the
counts of the enabled devices in the order of the enabled list joined by single
spaces, and ")", each count below `2^31` in decimal; the listed counts add up
to the printed total modulo `2^32`. -/
theorem ResToStr_segment (gpuIdx arr : List Nat)
    (hsmall : ∀ i ∈ gpuIdx, arr.getD i 0 < 2 ^ 31) :
    ResToStr gpuIdx arr
      = (if gpuIdx.length ≤ 1 ∨ resTotal gpuIdx arr = 0 then
          toString (resTotal gpuIdx arr)
        else
          toString (resTotal gpuIdx arr) ++ " ("
            ++ " ".intercalate (gpuIdx.map (fun i => toString (arr.getD i 0))) ++ ")") ∧
    resTotal gpuIdx arr = (gpuIdx.map (fun i => arr.getD i 0)).sum % 2 ^ 32 := by
  refine ⟨?_, resTotal_eq gpuIdx arr⟩
  have hmap : gpuIdx.map (fun i => formatD (arr.getD i 0))
      = gpuIdx.map (fun i => toString (arr.getD i 0)) :=
    List.map_congr_left (fun i hi => formatD_of_lt _ (hsmall i hi))
  rw [ResToStr_eq, ← resTotal_eq, hmap]
  by_cases hc : 1 < gpuIdx.length ∧ resTotal gpuIdx arr ≠ 0
  · have hn : ¬ (gpuIdx.length ≤ 1 ∨ resTotal gpuIdx arr = 0) := by
      intro h
      rcases h with h | h
      · omega
      · exact hc.2 h
    rw [if_pos hc, if_neg hn]
  · have hn : gpuIdx.length ≤ 1 ∨ resTotal gpuIdx arr = 0 := by
      by_cases h1 : 1 < gpuIdx.length
      · right
        by_contra h0
        exact hc ⟨h1, h0⟩
      · left; omega
    rw [if_neg hc, if_pos hn]

/-- Witness for C18 (amended): devices 0 and 2 enabled, counts 3, 5 and 2. -/
theorem ResToStr_segment_witness :
    ResToStr [0, 2] [3, 5, 2]
      = (if [0, 2].length ≤ 1 ∨ resTotal [0, 2] [3, 5, 2] = 0 then
          toString (resTotal [0, 2] [3, 5, 2])
        else
          toString (resTotal [0, 2] [3, 5, 2]) ++ " ("
            ++ " ".intercalate ([0, 2].map (fun i => toString ([3, 5, 2].getD i 0))) ++ ")") ∧
    resTotal [0, 2] [3, 5, 2] = ([0, 2].map (fun i => [3, 5, 2].getD i 0)).sum % 2 ^ 32 :=
  ResToStr_segment [0, 2] [3, 5, 2] (by decide)

/-! ## Rate line for any number of workers -/

/-- C14, as stated, fails: with a single worker the line is "Total: <name>
<rate>." and has no parenthesised breakdown. -/
theorem WorkingProgress_ToString_form_counterexample :
    ¬ (∀ (gpuName : Nat → String) (HashrateToString : F32 → String) (wp : WorkingProgress),
        ∃ tail : String,
          wp.ToString gpuName HashrateToString
            = "Total: " ++ HashrateToString (F32.ofNat wp.totalHashRate) ++ " ("
              ++ " ".intercalate
                  ((List.range wp.minersHasheRate.length).map
                    (wp.entry gpuName HashrateToString))
              ++ ")" ++ tail) := by
  intro h
  obtain ⟨tail, ht⟩ := h (fun i => "GPU" ++ toString i) (fun f => toString (F32.round f))
    ⟨100, [100], [0], [0], [0]⟩
  have h1 : (⟨100, [100], [0], [0], [0]⟩ : WorkingProgress).ToString
      (fun i => "GPU" ++ toString i) (fun f => toString (F32.round f))
      = "Total: GPU0 100." := by decide
  have h2 : "Total: " ++ (fun f => toString (F32.round f)) (F32.ofNat 100) ++ " ("
      ++ " ".intercalate
          ((List.range 1).map
            ((⟨100, [100], [0], [0], [0]⟩ : WorkingProgress).entry
              (fun i => "GPU" ++ toString i) (fun f => toString (F32.round f))))
      ++ ")" = "Total: 100 (GPU0 100)" := by decide
  have hlen : (⟨100, [100], [0], [0], [0]⟩ : WorkingProgress).minersHasheRate.length = 1 := rfl
  have htot : (⟨100, [100], [0], [0], [0]⟩ : WorkingProgress).totalHashRate = 100 := rfl
  rw [h1, hlen, htot, h2] at ht
  have h3 := congrArg String.data ht
  rw [String.data_append] at h3
  have h4 : ("Total: 100 (GPU0 100)" : String).data <+: ("Total: GPU0 100." : String).data :=
    ⟨tail.data, h3.symm⟩
  exact absurd h4 (by decide)

/-- C14, amended: with two or more workers the line is "Total: <rate> (<per-device
breakdown>). "; with a single worker it is "Total: <name> <rate>." without a
breakdown; with no worker it is "Total: <rate> ". -/
theorem WorkingProgress_ToString_form (gpuName : Nat → String)
    (HashrateToString : F32 → String) (wp : WorkingProgress) :
    (2 ≤ wp.minersHasheRate.length →
      wp.ToString gpuName HashrateToString
        = "Total: " ++ HashrateToString (F32.ofNat wp.totalHashRate) ++ " ("
          ++ " ".intercalate
              ((List.range wp.minersHasheRate.length).map (wp.entry gpuName HashrateToString))
          ++ "). ") ∧
    (wp.minersHasheRate.length = 1 →
      wp.ToString gpuName HashrateToString
        = "Total: " ++ gpuName (wp.gpuGlobalIndex.getD 0 0) ++ " "
          ++ HashrateToString (F32.ofNat wp.totalHashRate) ++ ".") ∧
    (wp.minersHasheRate.length = 0 →
      wp.ToString gpuName HashrateToString
        = "Total: " ++ HashrateToString (F32.ofNat wp.totalHashRate) ++ " ") := by
  refine ⟨?_, ?_, ?_⟩
  · intro hn
    have h1 : ¬ wp.minersHasheRate.length = 1 := by omega
    have h2 : wp.minersHasheRate.length > 1 := by omega
    unfold WorkingProgress.ToString
    simp only [h1, h2, if_false, if_true]
    rw [WorkingProgress_loop_eq]
    simp only [String.append_assoc]
    rfl
  · intro hn
    unfold WorkingProgress.ToString
    simp only [hn, if_true]
  · intro hn
    unfold WorkingProgress.ToString
    simp [hn]

/-! ## Temperature line -/

/-- Joining a list of texts extended by one text. -/
theorem join_append_singleton (l : List String) (x : String) :
    String.join (l ++ [x]) = String.join l ++ x := by
  unfold String.join
  rw [List.foldl_append]
  rfl

/-- A loop that appends an entry for the indices that pass a test appends the
entries of those indices, in index order. -/
theorem foldl_filter_append (p : Nat → Bool) (e : Nat → String) (init : String) :
    ∀ n : Nat, (List.range n).foldl (fun s i => if p i = true then s ++ e i else s) init
      = init ++ String.join (((List.range n).filter p).map e) := by
  intro n
  induction n with
  | zero => simp [String.join]
  | succ n ih =>
    rw [List.range_succ, List.foldl_append, ih, List.filter_append]
    by_cases hp : p n = true
    · simp [hp, join_append_singleton, String.append_assoc]
    · simp [hp]

/-- A loop that counts, modulo `m`, the indices that pass a test. -/
theorem foldl_count_mod (p : Nat → Bool) (m : Nat) :
    ∀ n : Nat, (List.range n).foldl (fun c i => if p i = true then (c + 1) % m else c) 0
      = ((List.range n).filter p).length % m := by
  intro n
  induction n with
  | zero => simp
  | succ n ih =>
    rw [List.range_succ, List.foldl_append, ih, List.filter_append]
    by_cases hp : p n = true
    · simp [hp]
    · simp [hp]

/-- C15: `TemperatureToString()` returns the empty text when every device is a
CPU, and otherwise "Temp: " followed, for each device that is not a CPU and in
index order, by "<name> <t>C <fan>%" and two spaces; a CPU contributes no
text. -/
theorem TemperatureToString_spec (isCPU : Nat → Bool) (gpuName : Nat → String)
    (wp : WorkingProgress)
    (_hfan : wp.fan.length = wp.temperature.length)
    (_hidx : wp.gpuGlobalIndex.length = wp.temperature.length)
    (hsize : wp.temperature.length < 2 ^ 32) :
    ((∀ i, i < wp.temperature.length → isCPU (wp.gpuGlobalIndex.getD i 0) = true) →
      wp.TemperatureToString isCPU gpuName = "") ∧
    ((∃ i, i < wp.temperature.length ∧ isCPU (wp.gpuGlobalIndex.getD i 0) = false) →
      wp.TemperatureToString isCPU gpuName
        = "Temp: " ++ String.join
            (((List.range wp.temperature.length).filter
                (fun i => !isCPU (wp.gpuGlobalIndex.getD i 0))).map
              (fun i => gpuName (wp.gpuGlobalIndex.getD i 0) ++ " "
                ++ formatD (wp.temperature.getD i 0) ++ "C "
                ++ formatD (wp.fan.getD i 0) ++ "%  "))) := by
  have hcount := foldl_count_mod (fun i => !isCPU (wp.gpuGlobalIndex.getD i 0)) U32_MOD
    wp.temperature.length
  have hloop := foldl_filter_append (fun i => !isCPU (wp.gpuGlobalIndex.getD i 0))
    (wp.tempEntry gpuName) "Temp: " wp.temperature.length
  simp only [Bool.not_eq_true'] at hcount hloop
  have hle : ((List.range wp.temperature.length).filter
      (fun i => !isCPU (wp.gpuGlobalIndex.getD i 0))).length ≤ wp.temperature.length := by
    have := List.length_filter_le (fun i => !isCPU (wp.gpuGlobalIndex.getD i 0))
      (List.range wp.temperature.length)
    simpa using this
  have hmod : ((List.range wp.temperature.length).filter
      (fun i => !isCPU (wp.gpuGlobalIndex.getD i 0))).length % U32_MOD
      = ((List.range wp.temperature.length).filter
      (fun i => !isCPU (wp.gpuGlobalIndex.getD i 0))).length := by
    apply Nat.mod_eq_of_lt
    unfold U32_MOD
    omega
  have heq : wp.TemperatureToString isCPU gpuName
      = if ((List.range wp.temperature.length).filter
            (fun i => !isCPU (wp.gpuGlobalIndex.getD i 0))).length ≠ 0 then
          "Temp: " ++ String.join
            (((List.range wp.temperature.length).filter
                (fun i => !isCPU (wp.gpuGlobalIndex.getD i 0))).map (wp.tempEntry gpuName))
        else "" := by
    simp only [WorkingProgress.TemperatureToString]
    rw [hcount, hloop, hmod]
  rw [heq]
  constructor
  · intro hall
    have hnil : (List.range wp.temperature.length).filter
        (fun i => !isCPU (wp.gpuGlobalIndex.getD i 0)) = [] := by
      rw [List.filter_eq_nil_iff]
      intro i hi
      rw [hall i (List.mem_range.mp hi)]
      decide
    rw [hnil]
    rfl
  · intro hex
    obtain ⟨i, hi, hgpu⟩ := hex
    have hne : ((List.range wp.temperature.length).filter
        (fun i => !isCPU (wp.gpuGlobalIndex.getD i 0))).length ≠ 0 := by
      have hmem : i ∈ (List.range wp.temperature.length).filter
          (fun i => !isCPU (wp.gpuGlobalIndex.getD i 0)) := by
        rw [List.mem_filter]
        refine ⟨List.mem_range.mpr hi, ?_⟩
        show (!isCPU (wp.gpuGlobalIndex.getD i 0)) = true
        rw [hgpu]
        rfl
      intro h0
      rw [List.length_eq_zero] at h0
      rw [h0] at hmem
      exact absurd hmem (List.not_mem_nil _)
    rw [if_pos hne]
    rfl

/-- Witness for C15: a CPU between two GPUs. -/
theorem TemperatureToString_spec_witness :
    ((∀ i, i < [63, 0, 64].length →
        (fun i => decide (i = 9)) (([3, 9, 4] : List Nat).getD i 0) = true) →
      (⟨0, [0, 0, 0], [3, 9, 4], [63, 0, 64], [31, 0, 24]⟩ : WorkingProgress).TemperatureToString
        (fun i => decide (i = 9)) (fun i => "GPU" ++ toString i) = "") ∧
    ((∃ i, i < [63, 0, 64].length ∧
        (fun i => decide (i = 9)) (([3, 9, 4] : List Nat).getD i 0) = false) →
      (⟨0, [0, 0, 0], [3, 9, 4], [63, 0, 64], [31, 0, 24]⟩ : WorkingProgress).TemperatureToString
        (fun i => decide (i = 9)) (fun i => "GPU" ++ toString i)
        = "Temp: " ++ String.join
            (((List.range [63, 0, 64].length).filter
                (fun i => !(fun i => decide (i = 9)) (([3, 9, 4] : List Nat).getD i 0))).map
              (fun i => (fun i => "GPU" ++ toString i) (([3, 9, 4] : List Nat).getD i 0) ++ " "
                ++ formatD (([63, 0, 64] : List Nat).getD i 0) ++ "C "
                ++ formatD (([31, 0, 24] : List Nat).getD i 0) ++ "%  "))) :=
  TemperatureToString_spec (fun i => decide (i = 9)) (fun i => "GPU" ++ toString i)
    ⟨0, [0, 0, 0], [3, 9, 4], [63, 0, 64], [31, 0, 24]⟩ rfl rfl (by decide)

/-! ## Stopping a worker -/

/-- C16: `Kill()` signals `workReadyEvent` and only then calls `Worker::Kill()`,
which therefore finds the event signaled; a wait on the event returns after
`Kill()`, also when the worker had just been paused (where the wait would
block); a second `Kill()` leaves the event signaled and the worker fields as
they are; no other field of the worker is changed. -/
theorem Kill_signals_event {Base : Type} (WorkerKill : Miner Work → Base → Base)
    (st : Miner Work) (base base2 : Base) :
    (st.Kill WorkerKill base).1.m_workReadyEvent.m_isDone = true ∧
    (st.Kill WorkerKill base).2 = WorkerKill (st.Kill WorkerKill base).1 base ∧
    (st.Kill WorkerKill base).1.m_workReadyEvent.WaitUntilDone
      = some (st.Kill WorkerKill base).1.m_workReadyEvent ∧
    st.Pause.m_workReadyEvent.WaitUntilDone = none ∧
    (st.Pause.Kill WorkerKill base).1.m_workReadyEvent.WaitUntilDone
      = some (st.Pause.Kill WorkerKill base).1.m_workReadyEvent ∧
    (st.Pause.Kill WorkerKill base).1.m_workReadyEvent.m_isDone = true ∧
    ((st.Kill WorkerKill base).1.Kill WorkerKill base2).1 = (st.Kill WorkerKill base).1 ∧
    (st.Kill WorkerKill base).1 = { st with m_workReadyEvent := { m_isDone := true } } := by
  simp [Miner.Kill, Miner.Pause, Event.SetDone, Event.Reset, Event.WaitUntilDone]

/-! ## Recoverable faults -/

/-- A finished run ended at the first step that did not return `true`. -/
theorem WorkLoopFrom_some (steps : Nat → StepOutcome) :
    ∀ (fuel i : Nat) (run : LoopRun), WorkLoopFrom steps fuel i = some run →
      ∃ n, (∀ j, j < n → steps (i + j) = .returnsTrue) ∧ steps (i + n) ≠ .returnsTrue ∧
        run.stepsRun = i + n + 1 := by
  intro fuel
  induction fuel with
  | zero => intro i run h; simp [WorkLoopFrom] at h
  | succ f ih =>
    intro i run h
    unfold WorkLoopFrom at h
    cases hs : steps i with
    | returnsTrue =>
      rw [hs] at h
      simp only at h
      obtain ⟨n, h1, h2, h3⟩ := ih (i + 1) run h
      refine ⟨n + 1, ?_, ?_, ?_⟩
      · intro j hj
        cases j with
        | zero => simpa using hs
        | succ j =>
          have := h1 j (by omega)
          rw [← this]
          congr 1
          omega
      · have e : i + (n + 1) = i + 1 + n := by omega
        rw [e]; exact h2
      · omega
    | returnsFalse =>
      rw [hs] at h
      simp only [Option.some.injEq] at h
      refine ⟨0, by intro j hj; omega, by simp [hs], ?_⟩
      rw [← h]
    | throwsClError =>
      rw [hs] at h
      simp only [Option.some.injEq] at h
      refine ⟨0, by intro j hj; omega, by simp [hs], ?_⟩
      rw [← h]
    | throwsOther =>
      rw [hs] at h
      simp only [Option.some.injEq] at h
      refine ⟨0, by intro j hj; omega, by simp [hs], ?_⟩
      rw [← h]

/-- C12: when the device call of a step hits a recoverable fault (an exception
that `RHMINER_CL_EXEC` logs and swallows) and no stop is observed, the fault is
logged, the step returns `true`, and `WorkLoop` does not exit at that step: it
is still running after it, every finished run has gone on to the next step,
and when the next step observes a stop the run ends there. -/
theorem WorkLoop_goes_on_after_recoverable_fault (device : Nat → ExecOutcome)
    (stop : Nat → Bool) (k fuel : Nat)
    (hearlier : ∀ j, j < k → (WorkLoopStep (device j) (stop j)).outcome = .returnsTrue)
    (hfault : device k = .throwsOther) (hstop : stop k = false) :
    (WorkLoopStep (device k) (stop k)).log = [.exception] ∧
    (WorkLoopStep (device k) (stop k)).outcome = .returnsTrue ∧
    WorkLoop (fun i => (WorkLoopStep (device i) (stop i)).outcome) (k + 1) = none ∧
    (∀ run, WorkLoop (fun i => (WorkLoopStep (device i) (stop i)).outcome) fuel = some run →
      k + 1 < run.stepsRun) ∧
    (k + 1 < fuel → device (k + 1) = .returnsZero → stop (k + 1) = true →
      WorkLoop (fun i => (WorkLoopStep (device i) (stop i)).outcome) fuel
        = some ⟨k + 2, [], .returned⟩) := by
  have hk : (WorkLoopStep (device k) (stop k)).outcome = .returnsTrue := by
    rw [hfault, hstop]; rfl
  generalize hsteps : (fun i => (WorkLoopStep (device i) (stop i)).outcome) = steps
  have hat : ∀ i, steps i = (WorkLoopStep (device i) (stop i)).outcome := by
    intro i; rw [← hsteps]
  have htrue : ∀ j, j < k + 1 → steps (0 + j) = .returnsTrue := by
    intro j hj
    rw [Nat.zero_add, hat]
    rcases Nat.lt_or_ge j k with hlt | hge
    · exact hearlier j hlt
    · have : j = k := by omega
      rw [this]; exact hk
  refine ⟨by rw [hfault, hstop]; rfl, hk, ?_, ?_, ?_⟩
  · exact WorkLoopFrom_running steps (k + 1) 0 htrue
  · intro run hrun
    obtain ⟨n, h1, h2, h3⟩ := WorkLoopFrom_some steps fuel 0 run hrun
    have hn : k + 1 ≤ n := by
      by_contra hlt
      exact h2 (htrue n (by omega))
    omega
  · intro hfuel hdev hst
    have hnext : steps (0 + (k + 1)) = .returnsFalse := by
      rw [Nat.zero_add, hat, hdev, hst]; rfl
    have h := WorkLoopFrom_skip steps (k + 1) 0 fuel htrue (by rw [hnext]; decide) hfuel
    rw [hnext, Nat.zero_add] at h
    exact h

/-- Witness for C12: the second step hits a recoverable fault, the third observes
a stop. -/
theorem WorkLoop_goes_on_after_recoverable_fault_witness :
    (WorkLoopStep (if 1 = 1 then ExecOutcome.throwsOther else .returnsZero)
        (decide (1 = 2))).log = [.exception] ∧
    (WorkLoopStep (if 1 = 1 then ExecOutcome.throwsOther else .returnsZero)
        (decide (1 = 2))).outcome = .returnsTrue ∧
    WorkLoop (fun i => (WorkLoopStep (if i = 1 then .throwsOther else .returnsZero)
        (decide (i = 2))).outcome) (1 + 1) = none ∧
    (∀ run, WorkLoop (fun i => (WorkLoopStep (if i = 1 then .throwsOther else .returnsZero)
        (decide (i = 2))).outcome) 5 = some run → 1 + 1 < run.stepsRun) ∧
    (1 + 1 < 5 → (if 1 + 1 = 1 then ExecOutcome.throwsOther else .returnsZero) = .returnsZero →
      decide (1 + 1 = 2) = true →
      WorkLoop (fun i => (WorkLoopStep (if i = 1 then .throwsOther else .returnsZero)
        (decide (i = 2))).outcome) 5 = some ⟨1 + 2, [], .returned⟩) :=
  WorkLoop_goes_on_after_recoverable_fault
    (fun i => if i = 1 then .throwsOther else .returnsZero) (fun i => decide (i = 2)) 1 5
    (by intro j hj; have : j = 0 := by omega
        subst this; decide)
    (by decide) (by decide)

end RHMiner
